import Mathlib

/-!
PRAJTRACK receipt field extraction (`src/services/ocr.js`)

A shallow embedding of the receipt pipeline of `ocr.js` and the properties of
its field extractors and of its binarization pass.

Conventions of the embedding.

* A JavaScript string is the list of its characters (`Str`).  Every pattern,
  separator and keyword of `ocr.js` is made of characters of the Basic
  Multilingual Plane and no pattern uses `.` as a wildcard, so a character
  outside the plane behaves as any other character that matches no class.
* A regular expression literal is a value of `Pat`; `Pat.run` lists the ways
  the pattern can match at the start of a string in the order in which a
  backtracking matcher tries them, so the match that the matcher reports is
  the head of that list.
* `Dbl` are the values `parseFloat` can return on an unsigned decimal literal:
  a finite double is recorded by its exact value counted in units of
  `2 ^ (-1074)`, the spacing of the subnormal doubles, of which every finite
  double is a whole multiple.
-/

namespace Ocr

/-- A JavaScript string, as the list of its characters. -/
abbrev Str := List Char

/-! ## Regular expressions -/

/-- The fragment of the regular expression syntax that `ocr.js` uses.  The
quantifiers `*`, `+`, `?` and `{n}` are only ever applied to a one-character
atom in the source, so `star` takes a character class. -/
inductive Pat where
  /-- one character of a class (a literal, `\d`, `\s`, `[...]`) -/
  | cls (p : Char → Bool)
  /-- concatenation -/
  | seq (a b : Pat)
  /-- alternation `a|b`, `a` tried first -/
  | alt (a b : Pat)
  /-- greedy `a?` -/
  | opt (a : Pat)
  /-- greedy `c*` on a character class -/
  | star (p : Char → Bool)

/-- Greedy `c*`: the longest run first, then every shorter one. -/
def starRun (p : Char → Bool) : Str → List (Str × Str)
  | [] => [([], [])]
  | c :: t =>
    if p c then (starRun p t).map (fun mr => (c :: mr.1, mr.2)) ++ [([], c :: t)]
    else [([], c :: t)]

/-- All the ways `pat` matches a prefix of `s`, as pairs (matched, rest), in
backtracking order. -/
def Pat.run : Pat → Str → List (Str × Str)
  | .cls p, s =>
    match s with
    | [] => []
    | c :: t => if p c then [([c], t)] else []
  | .seq a b, s =>
    (a.run s).flatMap fun m1 => (b.run m1.2).map fun m2 => (m1.1 ++ m2.1, m2.2)
  | .alt a b, s => a.run s ++ b.run s
  | .opt a, s => a.run s ++ [([], s)]
  | .star p, s => starRun p s

/-- Greedy `c+` is `cc*`. -/
def Pat.plus (p : Char → Bool) : Pat := .seq (.cls p) (.star p)

/-- The bounded repetition `c{n}` of a character class, for `n ≥ 1`. -/
def Pat.rep (p : Char → Bool) : Nat → Pat
  | 0 => .opt (.cls fun _ => false)
  | 1 => .cls p
  | n + 2 => .seq (.cls p) (Pat.rep p (n + 1))

/-- A literal string, as the sequence of its one-character classes. -/
def Pat.lit (eq : Char → Char → Bool) : Str → Pat
  | [] => .opt (.cls fun _ => false)
  | [c] => .cls (eq c)
  | c :: t => .seq (.cls (eq c)) (Pat.lit eq t)

/-- The match of a pattern at the start of `s`: the first way in backtracking
order, as `match[0]`. -/
def matchAt (pat : Pat) (s : Str) : Option Str :=
  ((pat.run s).map fun m => m.1).head?

/-- The match at the start of `s` of a pattern `head(group)` whose only
capturing group is its last part: the pair (`match[0]`, `match[1]`). -/
def matchAt1 (hd grp : Pat) (s : Str) : Option (Str × Str) :=
  ((hd.run s).flatMap fun m1 => (grp.run m1.2).map fun m2 => (m1.1 ++ m2.1, m2.1)).head?

/-- The leftmost match: `f` is tried at index 0, 1, ... up to the end of the
string (`RegExp.prototype.exec` without the `g` flag). -/
def searchFrom {α : Type} (f : Str → Option α) : Str → Option α
  | [] => f []
  | c :: t =>
    match f (c :: t) with
    | some r => some r
    | none => searchFrom f t

/-- All the matches of a pattern with the `g` flag, in document order
(`String.prototype.match`): after a match the scan resumes at its end, or one
character further when the match is empty.  `skip` counts the characters of
the last match still to be stepped over.  The empty list stands for `null`. -/
def matchAllFrom (f : Str → Option Str) : Nat → Str → List Str
  | _, [] =>
    match f [] with
    | some m => [m]
    | none => []
  | skip + 1, _ :: t => matchAllFrom f skip t
  | 0, c :: t =>
    match f (c :: t) with
    | some m => m :: matchAllFrom f (m.length - 1) t
    | none => matchAllFrom f 0 t

/-- The class `\d`: the ten ASCII digits. -/
def isDigit (c : Char) : Bool := 48 ≤ c.toNat && c.toNat ≤ 57

/-- The class `\s`: the white space and line terminator characters of
ECMAScript. -/
def isSpace (c : Char) : Bool :=
  let n := c.toNat
  n == 0x09 || n == 0x0A || n == 0x0B || n == 0x0C || n == 0x0D || n == 0x20 ||
  n == 0xA0 || n == 0x1680 || (0x2000 ≤ n && n ≤ 0x200A) || n == 0x2028 ||
  n == 0x2029 || n == 0x202F || n == 0x205F || n == 0x3000 || n == 0xFEFF

/-- The letters of ASCII. -/
def isAsciiLetter (c : Char) : Bool :=
  (65 ≤ c.toNat && c.toNat ≤ 90) || (97 ≤ c.toNat && c.toNat ≤ 122)

/-- Upper-casing of the ASCII letters, on character codes. -/
def upperCode (n : Nat) : Nat := if 97 ≤ n ∧ n ≤ 122 then n - 32 else n

/-- Equality of a pattern character and an input character under the `i` flag
without the `u` flag.  `Canonicalize` upper-cases both, but leaves a
character outside ASCII alone when its upper-case form is inside ASCII, so a
pattern letter of ASCII is matched by its two ASCII cases only, and the rupee
sign (which no character upper-cases to) by itself only. -/
def eqIgnoreCase (a c : Char) : Bool := upperCode a.toNat == upperCode c.toNat

/-- Equality of a pattern character and an input character without the `i`
flag. -/
def eqExact (a c : Char) : Bool := a == c

/-! ## Strings -/

/-- The method `split` with a one-character separator. -/
def split (sep : Char) : Str → List Str
  | [] => [[]]
  | c :: t =>
    if c = sep then [] :: split sep t
    else
      match split sep t with
      | l :: ls => (c :: l) :: ls
      | [] => [[c]]

/-- The call `line.replace(/,/g, '')`: every comma is deleted. -/
def removeCommas (line : Str) : Str := line.filter fun c => c != ','

/-! ## Numbers -/

/-- The results of `parseFloat` on an unsigned decimal literal: a finite
non-negative double, `fin k` for the value `k * 2 ^ (-1074)`; `Infinity`; and
`NaN`. -/
inductive Dbl where
  | fin (k : Nat)
  | inf
  | nan
  deriving DecidableEq, Repr

/-- Rounding of the fraction `n / d` to the nearest integer, ties to even. -/
def roundHalfEven (n d : Nat) : Nat :=
  let q := n / d
  let r := n % d
  if 2 * r < d then q
  else if d < 2 * r then q + 1
  else if q % 2 = 0 then q else q + 1

/-- The number of times `m` can be halved before it drops below 2 (at most
`fuel` times): the binary exponent of an integer `m ≥ 1`. -/
def expUp : Nat → Nat → Nat
  | 0, _ => 0
  | fuel + 1, m => if m < 2 then 0 else expUp fuel (m / 2) + 1

/-- The number of doublings (at most `fuel`) that bring `n / d < 1` to at
least 1. -/
def expDown : Nat → Nat → Nat → Nat
  | 0, _, _ => 0
  | fuel + 1, n, d => if d ≤ n then 0 else expDown fuel (2 * n) d + 1

/-- The binary exponent `e` of the positive fraction `n / d`
(`2 ^ e ≤ n / d < 2 ^ (e + 1)`), held to the range of the doubles: at least
`-1022`, the exponent of the subnormal doubles, and at most 1024. -/
def binExp (n d : Nat) : Int :=
  if d ≤ n then (expUp 1024 (n / d) : Int) else - (expDown 1022 n d : Int)

/-- The double nearest to the fraction `n / d` (round to nearest, ties to
even), `Infinity` from `2 ^ 1024` on.  The doubles of binary exponent `e` are
`2 ^ (e + 1022)` units apart. -/
def roundToDouble (n d : Nat) : Dbl :=
  let sh := (binExp n d + 1022).toNat
  let k := roundHalfEven (n * 2 ^ 1074) (d * 2 ^ sh) * 2 ^ sh
  if 2 ^ 2098 ≤ k then .inf else .fin k

/-- The value of a digit character. -/
def digitVal (c : Char) : Nat := c.toNat - '0'.toNat

/-- The number written by a run of decimal digits. -/
def digitsVal (ds : Str) : Nat := ds.foldl (fun acc c => 10 * acc + digitVal c) 0

/-- The function `parseFloat` on the strings that reach it in `ocr.js`: it
reads the longest prefix of the form digits, an optional dot, digits, and
rounds the number written there to a double; `NaN` when the prefix has no
digit.  The candidates it is applied to are made of digits and a dot only,
so a sign, an exponent, leading white space and `Infinity` never occur.  The
rounding is the correct one (to nearest, ties to even), as the engines
compute it; the properties proved of `extractAmount` do not depend on it. -/
def parseFloat (s : Str) : Dbl :=
  let ip := s.takeWhile isDigit
  let rest := s.dropWhile isDigit
  let fp := match rest with
    | '.' :: t => t.takeWhile isDigit
    | _ => []
  if ip = [] ∧ fp = [] then .nan
  else roundToDouble (digitsVal (ip ++ fp)) (10 ^ fp.length)

/-- The sign (`-1`, `0` or `1`) under which `sort` sees the difference `x - y`
of two doubles.  A difference of finite doubles is zero only when they are
equal; `Infinity - Infinity` and every difference with `NaN` are `NaN`, which
`sort` reads as `+0`. -/
def subSign : Dbl → Dbl → Int
  | .fin a, .fin b => if a < b then -1 else if b < a then 1 else 0
  | .inf, .fin _ => 1
  | .fin _, .inf => -1
  | _, _ => 0

/-- Insertion of `a`, an element that stood before all of `l`, into the
sorted `l`: before the first `b` that the comparator does not put first. -/
def insertSorted {α : Type} (cmp : α → α → Int) (a : α) : List α → List α
  | [] => [a]
  | b :: l => if cmp a b ≤ 0 then a :: b :: l else b :: insertSorted cmp a l

/-- The method `sort` with a comparator: the stable sort, in which `a` comes
before `b` when `cmp a b < 0` and elements that compare as equal keep their
order.  The algorithm of the engine is not fixed by the language; its result
is, for a comparator that orders the elements consistently, and is the one
of this insertion sort. -/
def sortWith {α : Type} (cmp : α → α → Int) : List α → List α
  | [] => []
  | a :: l => insertSorted cmp a (sortWith cmp l)

/-! ## `extractAmount` -/

/-- The head `(?:₹|rs\.?|total|amt|paid|amount)[:\s]*` of `amountRegex`,
under the `i` flag. -/
def amountRegexHead : Pat :=
  .seq
    (.alt (Pat.lit eqIgnoreCase "₹".toList)
      (.alt (.seq (Pat.lit eqIgnoreCase "rs".toList) (.opt (.cls (eqIgnoreCase '.'))))
        (.alt (Pat.lit eqIgnoreCase "total".toList)
          (.alt (Pat.lit eqIgnoreCase "amt".toList)
            (.alt (Pat.lit eqIgnoreCase "paid".toList)
              (Pat.lit eqIgnoreCase "amount".toList))))))
    (.star fun c => c == ':' || isSpace c)

/-- The capturing group `([\d]+\.?\d*)` of `amountRegex`. -/
def amountRegexGroup : Pat :=
  .seq (Pat.plus isDigit) (.seq (.opt (.cls (eqIgnoreCase '.'))) (.star isDigit))

/-- The call `cleaned.match(amountRegex)`, reduced to its `match[1]`. -/
def amountMatch (cleaned : Str) : Option Str :=
  (searchFrom (matchAt1 amountRegexHead amountRegexGroup) cleaned).map fun m => m.2

/-- The array `candidates` after the loop over the lines. -/
def amountCandidates (text : Str) : List Str :=
  (split '\n' text).filterMap fun line => amountMatch (removeCommas line)

/-- The comparator `(a, b) => parseFloat(b) - parseFloat(a)`. -/
def amountCompare (a b : Str) : Int := subSign (parseFloat b) (parseFloat a)

/-- The pattern `\d+\.\d{2}` of `fallbackRegex`. -/
def fallbackRegex : Pat :=
  .seq (Pat.plus isDigit) (.seq (.cls (eqExact '.')) (.seq (.cls isDigit) (.cls isDigit)))

/-- The call `text.match(fallbackRegex)`, the empty list for `null`. -/
def fallbackMatches (text : Str) : List Str := matchAllFrom (matchAt fallbackRegex) 0 text

/-- The function `extractAmount`. -/
def extractAmount (text : Str) : Str :=
  let candidates := amountCandidates text
  if candidates.length > 0 then
    (sortWith amountCompare candidates).headD []
  else
    match (fallbackMatches text).getLast? with
    | some m => m
    | none => []

/-! ## `extractDate` -/

/-- The class of the two date separators, the hyphen and the slash. -/
def isDateSep (c : Char) : Bool := c == '-' || c == '/'

/-- The pattern of `dateRegex`, an alternation: `\d{2}`, a separator, `\d{2}`,
a separator, `\d{4}`; or `\d{4}`, a separator, `\d{2}`, a separator, `\d{2}`. -/
def dateRegex : Pat :=
  .alt
    (.seq (Pat.rep isDigit 2) (.seq (.cls isDateSep) (.seq (Pat.rep isDigit 2)
      (.seq (.cls isDateSep) (Pat.rep isDigit 4)))))
    (.seq (Pat.rep isDigit 4) (.seq (.cls isDateSep) (.seq (Pat.rep isDigit 2)
      (.seq (.cls isDateSep) (Pat.rep isDigit 2)))))

/-- The reading of the clock, `new Date()`, by its UTC fields.  The year is
any integer; the other fields are in their calendar ranges. -/
structure UtcTime where
  year : Int
  month : Nat
  day : Nat
  hour : Nat
  minute : Nat
  second : Nat
  millisecond : Nat
  month_range : 1 ≤ month ∧ month ≤ 12
  day_range : 1 ≤ day ∧ day ≤ 31
  hour_range : hour ≤ 23
  minute_range : minute ≤ 59
  second_range : second ≤ 59
  millisecond_range : millisecond ≤ 999

/-- A reading of the clock for the examples: 4 November 2026, 21:17:03.045 UTC. -/
def sampleClock : UtcTime :=
  ⟨2026, 11, 4, 21, 17, 3, 45, by decide, by decide, by decide, by decide, by decide, by decide⟩

/-- The character of the last decimal digit of `k`. -/
def digitChar (k : Nat) : Char := Char.ofNat (48 + k % 10)

/-- The last `w` decimal digits of `n`, with leading zeros: the decimal
numeral of `n` padded to the width `w` when `n < 10 ^ w`. -/
def padDigits : Nat → Nat → Str
  | 0, _ => []
  | w + 1, n => padDigits w (n / 10) ++ [digitChar n]

/-- The year of the ISO format: four digits for the years 0 to 9999, a sign
and six digits for the others. -/
def isoYear (y : Int) : Str :=
  if 0 ≤ y ∧ y ≤ 9999 then padDigits 4 y.toNat
  else (if y < 0 then '-' else '+') :: padDigits 6 y.natAbs

/-- The method `toISOString`: `YYYY-MM-DDTHH:mm:ss.sssZ`. -/
def toISOString (d : UtcTime) : Str :=
  isoYear d.year ++ '-' :: padDigits 2 d.month ++ '-' :: padDigits 2 d.day ++
    'T' :: padDigits 2 d.hour ++ ':' :: padDigits 2 d.minute ++ ':' :: padDigits 2 d.second ++
    '.' :: padDigits 3 d.millisecond ++ ['Z']

/-- The function `extractDate`, with the reading `now` of the clock that
`new Date()` takes. -/
def extractDate (now : UtcTime) (text : Str) : Str :=
  match searchFrom (matchAt dateRegex) text with
  | some m => m
  | none => (split 'T' (toISOString now)).headD []

/-! ## `extractCategory` and `extractPaymentMethod` -/

/-- The lower-case form of one character, as the method `toLowerCase` gives
it, for the characters that matter to a search for ASCII keywords: the
capital letters of ASCII, and the two characters outside ASCII whose
lower-case form holds an ASCII letter, the Kelvin sign (to `k`) and the
capital I with dot above (to `i` and a combining dot).  Every other character
has a lower-case form outside ASCII, or none, and stands for it. -/
def lowerChar (c : Char) : Str :=
  if 65 ≤ c.toNat ∧ c.toNat ≤ 90 then [Char.ofNat (c.toNat + 32)]
  else if c.toNat = 0x212A then ['k']
  else if c.toNat = 0x130 then ['i', Char.ofNat 0x307]
  else [c]

/-- The method `toLowerCase`. -/
def toLowerCase (s : Str) : Str := s.flatMap lowerChar

/-- The method `includes`: `w` starts at some index of `t`. -/
def includes : Str → Str → Bool
  | [], w => w.isPrefixOf []
  | c :: t, w => w.isPrefixOf (c :: t) || includes t w

/-- The object `mapping`, in the order of its keys. -/
def mapping : List (String × List String) :=
  [("Food", ["zomato", "swiggy", "restaurant", "food", "cafe", "dining", "bake", "lunch",
      "dinner"]),
   ("Travel", ["uber", "ola", "fuel", "petrol", "diesel", "transport", "taxi", "metro"]),
   ("Shopping", ["amazon", "flipkart", "mart", "store", "retail", "fashions", "mall"]),
   ("Health", ["pharmacy", "hospital", "doctor", "clinic", "medical", "medicine"]),
   ("Bills", ["electricity", "water", "recharge", "mobile", "internet", "subscription"])]

/-- The loop over `Object.entries(mapping)`: the first category one of whose
words `t` includes, `Other` after the last. -/
def categoryLoop (t : Str) : List (String × List String) → String
  | [] => "Other"
  | (cat, words) :: rest =>
    if words.any (fun w => includes t w.toList) then cat else categoryLoop t rest

/-- The function `extractCategory`. -/
def extractCategory (text : Str) : String :=
  let t := toLowerCase text
  categoryLoop t mapping

/-- The function `extractPaymentMethod`. -/
def extractPaymentMethod (text : Str) : String :=
  let t := toLowerCase text
  if includes t "upi".toList || includes t "scan".toList || includes t "phonepe".toList ||
      includes t "paytm".toList || includes t "gpay".toList then "UPI"
  else if includes t "card".toList || includes t "visa".toList ||
      includes t "mastercard".toList || includes t "credit".toList ||
      includes t "debit".toList then "Card"
  else if includes t "netbanking".toList || includes t "neft".toList ||
      includes t "imbps".toList then "NetBanking"
  else "Cash"

/-! ## The binarization pass of `preprocessImage` -/

/-- The expression `(data[i] + data[i + 1] + data[i + 2]) / 3`; a read past
the end of the buffer is `undefined` and makes the sum `NaN`, here `none`.
The bytes are at most 255, so the sum is an integer below 766, and its
quotient by 3 as a double is above 128 exactly when the exact quotient is. -/
def avg (r g b : Option Nat) : Option ℚ :=
  match r, g, b with
  | some r, some g, some b => some (((r + g + b : Nat) : ℚ) / 3)
  | _, _, _ => none

/-- The expression `avg > 128 ? 255 : 0`; a comparison with `NaN` is false. -/
def color (mean : Option ℚ) : Nat :=
  match mean with
  | some a => if a > 128 then 255 else 0
  | none => 0

/-- The loop `for (let i = 0; i < data.length; i += 4)` from the index `i` on,
run for at most `fuel` rounds.  A write past the end of the buffer has no
effect. -/
def binarizeLoop : Nat → Nat → List Nat → List Nat
  | 0, _, data => data
  | fuel + 1, i, data =>
    if i < data.length then
      let c := color (avg data[i]? data[i + 1]? data[i + 2]?)
      binarizeLoop fuel (i + 4) (((data.set i c).set (i + 1) c).set (i + 2) c)
    else data

/-- The binarization pass on the bytes `data` of the image: the loop from
index 0.  It needs one round for every four bytes, so `data.length` rounds
are enough. -/
def binarize (data : List Nat) : List Nat := binarizeLoop data.length 0 data

/-- The binarization pass pixel by pixel: the form of `binarize` in which the
pass is read off the list of bytes four at a time. -/
def binarizePixels : List Nat → List Nat
  | r :: g :: b :: a :: rest =>
    color (avg (some r) (some g) (some b)) ::
      color (avg (some r) (some g) (some b)) ::
      color (avg (some r) (some g) (some b)) :: a :: binarizePixels rest
  | [r, g, b] =>
    [color (avg (some r) (some g) (some b)),
      color (avg (some r) (some g) (some b)),
      color (avg (some r) (some g) (some b))]
  | [_, _] => [0, 0]
  | [_] => [0]
  | [] => []

/-! ## `preprocessImage` and `analyzeImage` -/

/-- The state in which an awaited promise is found: fulfilled with a value,
rejected with an error, or never settled. -/
inductive Settled (α : Type) where
  | fulfilled (value : α)
  | rejected (error : String)
  | pending

/-- The pixels of a loaded image: the size of the canvas and the bytes of
`imageData.data`. -/
structure ImageData where
  width : Nat
  height : Nat
  data : List Nat

/-- A value read from `result.data.text`: a string, or a value without the
methods of a string (`undefined`, `null`, a number), which stands also for a
`result` or a `result.data` that is missing. -/
inductive JsValue where
  | str (s : Str)
  | other

/-- The collaborators of the pipeline, outside `ocr.js`: the clock; the
browser, which loads the image source and hands out its pixels and encodes
the canvas as a JPEG data URL; and the recognition engine, by the
`result.data.text` it resolves with.  The promise of `preprocessImage` is
built with `resolve` alone and the image has no `onerror` handler: `load` is
`pending` when the image does not load or when the `onload` handler throws,
and `rejected` only when the executor itself throws, as where there is no
`Image`. -/
structure World where
  now : UtcTime
  load : Str → Settled ImageData
  toDataURL : ImageData → Str
  recognize : Str → Settled JsValue

/-- The function `preprocessImage`: the pixels of the loaded image are
binarized, put back and encoded. -/
def preprocessImage (w : World) (imageSoruce : Str) : Settled Str :=
  match w.load imageSoruce with
  | .fulfilled img => .fulfilled (w.toDataURL { img with data := binarize img.data })
  | .rejected e => .rejected e
  | .pending => .pending

/-- The object that `analyzeImage` returns; `confidence_score` is `none` when
the object has no such field. -/
structure ExpenseRecord where
  text : Str
  amount : Str
  date : Str
  category : String
  payment_method : String
  confidence_score : Option Nat

/-- The body of the `try` block of `analyzeImage`; `rejected` is an exception
thrown in it.  On a `text` that is not a string the call `text.split` in
`extractAmount`, the first extractor called, throws a `TypeError`. -/
def analyzeBody (w : World) (imageFile : Str) : Settled ExpenseRecord :=
  match preprocessImage w imageFile with
  | .pending => .pending
  | .rejected e => .rejected e
  | .fulfilled processedImage =>
    match w.recognize processedImage with
    | .pending => .pending
    | .rejected e => .rejected e
    | .fulfilled (.other) => .rejected "TypeError"
    | .fulfilled (.str text) =>
      .fulfilled
        { text := text
          amount := extractAmount text
          date := extractDate w.now text
          category := extractCategory text
          payment_method := extractPaymentMethod text
          confidence_score := some 100 }

/-- The function `analyzeImage`: the `try` block, and the `catch` clause that
turns every exception into the default record. -/
def analyzeImage (w : World) (imageFile : Str) : Settled ExpenseRecord :=
  match analyzeBody w imageFile with
  | .fulfilled record => .fulfilled record
  | .rejected _ =>
    .fulfilled
      { text := []
        amount := []
        date := []
        category := "Other"
        payment_method := "Cash"
        confidence_score := none }
  | .pending => .pending

/-! ## Shapes of the extracted strings -/

/-- A numeric token as the capturing group of `amountRegex` reads it: one or
more digits, an optional dot, and a possibly empty run of digits. -/
def IsAmountToken (m : Str) : Prop :=
  ∃ ip dot fp : Str, m = ip ++ dot ++ fp ∧ ip ≠ [] ∧ (∀ c ∈ ip, isDigit c = true) ∧
    (dot = [] ∨ dot = ['.']) ∧ ∀ c ∈ fp, isDigit c = true

/-- A token of the form one or more digits, a dot, two digits. -/
def IsDecimal2 (m : Str) : Prop :=
  ∃ (ip : Str) (f1 f2 : Char), m = ip ++ ['.', f1, f2] ∧ ip ≠ [] ∧
    (∀ c ∈ ip, isDigit c = true) ∧ isDigit f1 = true ∧ isDigit f2 = true

/-- The order of the doubles; `NaN` is comparable to nothing. -/
def Dbl.le : Dbl → Dbl → Prop
  | .fin a, .fin b => a ≤ b
  | .fin _, .inf => True
  | .inf, .inf => True
  | _, _ => False

/-- One of the two date shapes, `DD sep MM sep YYYY` and `YYYY sep MM sep DD`:
three runs of digits of the lengths 2, 2, 4 or 4, 2, 2, with a separator, a
hyphen or a slash, after the first run and after the second. -/
def IsDateShape (d : Str) : Prop :=
  ∃ (a : Str) (s1 : Char) (b : Str) (s2 : Char) (c : Str),
    d = a ++ s1 :: b ++ s2 :: c ∧ isDateSep s1 = true ∧ isDateSep s2 = true ∧
    (∀ x ∈ a, isDigit x = true) ∧ (∀ x ∈ b, isDigit x = true) ∧ (∀ x ∈ c, isDigit x = true) ∧
    ((a.length = 2 ∧ b.length = 2 ∧ c.length = 4) ∨ (a.length = 4 ∧ b.length = 2 ∧ c.length = 2))

/-! ## Reference definitions of the classifiers -/

/-- The keywords of a category tag. -/
def keywordsOf (cat : String) : List String :=
  if cat = "Food" then
    ["zomato", "swiggy", "restaurant", "food", "cafe", "dining", "bake", "lunch", "dinner"]
  else if cat = "Travel" then
    ["uber", "ola", "fuel", "petrol", "diesel", "transport", "taxi", "metro"]
  else if cat = "Shopping" then
    ["amazon", "flipkart", "mart", "store", "retail", "fashions", "mall"]
  else if cat = "Health" then
    ["pharmacy", "hospital", "doctor", "clinic", "medical", "medicine"]
  else if cat = "Bills" then
    ["electricity", "water", "recharge", "mobile", "internet", "subscription"]
  else []

/-- One of the words of `ws` occurs as a substring of `t`. -/
def OccursAny (ws : List String) (t : Str) : Prop := ∃ w ∈ ws, w.toList <:+: t

instance (ws : List String) (t : Str) : Decidable (OccursAny ws t) := by
  unfold OccursAny
  infer_instance

/-- The lower-case forms of the reference definitions, as a table: the
twenty-six capital letters of ASCII, the Kelvin sign and the capital I with
dot above.  A character that the table does not list has no ASCII letter in
its lower-case form and is kept. -/
def lowerCaseTable : List (Char × Str) :=
  [('A', ['a']), ('B', ['b']), ('C', ['c']), ('D', ['d']), ('E', ['e']), ('F', ['f']),
   ('G', ['g']), ('H', ['h']), ('I', ['i']), ('J', ['j']), ('K', ['k']), ('L', ['l']),
   ('M', ['m']), ('N', ['n']), ('O', ['o']), ('P', ['p']), ('Q', ['q']), ('R', ['r']),
   ('S', ['s']), ('T', ['t']), ('U', ['u']), ('V', ['v']), ('W', ['w']), ('X', ['x']),
   ('Y', ['y']), ('Z', ['z']), (Char.ofNat 0x212A, ['k']),
   (Char.ofNat 0x130, ['i', Char.ofNat 0x307])]

/-- The lower-cased text of the reference definitions, read off the table
character by character. -/
def lowerCaseRef (s : Str) : Str :=
  s.flatMap fun c => (lowerCaseTable.lookup c).getD [c]

/-- The walk over the categories on a text `t` that is already lower-cased:
the first of Food, Travel, Shopping, Health, Bills one of whose keywords
occurs as a substring of `t`, and Other when none does. -/
def categoryOn (t : Str) : String :=
  match ["Food", "Travel", "Shopping", "Health", "Bills"].find?
      (fun cat => decide (OccursAny (keywordsOf cat) t)) with
  | some cat => cat
  | none => "Other"

/-- The reference definition of the category: lower-case the text, then walk
the categories. -/
def categorySpec (text : Str) : String := categoryOn (lowerCaseRef text)

/-- The priority chain of the payment tags on a text `t` that is already
lower-cased: UPI, Card, NetBanking by their keywords, and Cash when no
keyword occurs. -/
def paymentOn (t : Str) : String :=
  if OccursAny ["upi", "scan", "phonepe", "paytm", "gpay"] t then "UPI"
  else if OccursAny ["card", "visa", "mastercard", "credit", "debit"] t then "Card"
  else if OccursAny ["netbanking", "neft", "imbps"] t then "NetBanking"
  else "Cash"

/-- The reference definition of the payment method: lower-case the text, then
follow the priority chain. -/
def paymentSpec (text : Str) : String := paymentOn (lowerCaseRef text)

/-- The strict order of the doubles. -/
def Dbl.lt : Dbl → Dbl → Prop
  | .fin a, .fin b => a < b
  | .fin _, .inf => True
  | _, _ => False

/-! ## Reference notions of the behaviour claims -/

/-- A world for the examples: the sample clock, an image of one white pixel,
and an engine that reads `Total: 450.00` off every image. -/
def sampleWorld : World :=
  { now := sampleClock
    load := fun _ => .fulfilled { width := 1, height := 1, data := [255, 255, 255, 255] }
    toDataURL := fun _ => "data:image/jpeg;base64,".toList
    recognize := fun _ => .fulfilled (.str "Total: 450.00".toList) }

/-- The sample world with an engine that rejects. -/
def rejectingWorld : World :=
  { sampleWorld with recognize := fun _ => .rejected "recognition failed" }

/-- The sample world with an image source that does not load. -/
def unloadableWorld : World :=
  { sampleWorld with load := fun _ => .pending }

/-- The sample world with an engine whose result has no text. -/
def textlessWorld : World :=
  { sampleWorld with recognize := fun _ => .fulfilled .other }

/-- The upper-case form of a character of ASCII. -/
def upperAsciiChar (c : Char) : Char :=
  if 97 ≤ c.toNat ∧ c.toNat ≤ 122 then Char.ofNat (c.toNat - 32) else c

/-- The upper-cased form of a text of ASCII. -/
def upperAscii (s : Str) : Str := s.map upperAsciiChar

/-- A text made of characters of ASCII. -/
def IsAscii (s : Str) : Prop := ∀ c ∈ s, c.toNat < 128

/-- The keywords of the payment tags, in the order of the chain. -/
def paymentKeywords : List (String × List String) :=
  [("UPI", ["upi", "scan", "phonepe", "paytm", "gpay"]),
   ("Card", ["card", "visa", "mastercard", "credit", "debit"]),
   ("NetBanking", ["netbanking", "neft", "imbps"])]

/-- The rank of a category tag in the order of priority. -/
def categoryRank (tag : String) : Nat :=
  if tag = "Food" then 0
  else if tag = "Travel" then 1
  else if tag = "Shopping" then 2
  else if tag = "Health" then 3
  else if tag = "Bills" then 4
  else 5

/-- The rank of a payment tag in the order of priority. -/
def paymentRank (tag : String) : Nat :=
  if tag = "UPI" then 0
  else if tag = "Card" then 1
  else if tag = "NetBanking" then 2
  else 3

/-! ## Lemmas on the matcher -/

theorem starRun_sound (p : Char → Bool) (s m r : Str) (h : (m, r) ∈ starRun p s) :
    s = m ++ r ∧ ∀ c ∈ m, p c = true := by
  induction s generalizing m r with
  | nil => simp [starRun] at h; obtain ⟨rfl, rfl⟩ := h; simp
  | cons c t ih =>
    unfold starRun at h
    split at h
    · rename_i hp
      rw [List.mem_append] at h
      rcases h with h | h
      · rw [List.mem_map] at h
        obtain ⟨⟨m', r'⟩, hmem, heq⟩ := h
        simp only [Prod.mk.injEq] at heq
        obtain ⟨rfl, rfl⟩ := heq
        obtain ⟨h1, h2⟩ := ih _ _ hmem
        refine ⟨by simp [h1], ?_⟩
        intro x hx
        rcases List.mem_cons.1 hx with rfl | hx
        · exact hp
        · exact h2 x hx
      · simp at h; obtain ⟨rfl, rfl⟩ := h; simp
    · simp at h; obtain ⟨rfl, rfl⟩ := h; simp

theorem starRun_complete (p : Char → Bool) (m r : Str) (h : ∀ c ∈ m, p c = true) :
    (m, r) ∈ starRun p (m ++ r) := by
  induction m with
  | nil =>
    cases r with
    | nil => simp [starRun]
    | cons c t =>
      simp only [List.nil_append, starRun]
      split <;> simp
  | cons c t ih =>
    have hc : p c = true := h c (List.mem_cons_self _ _)
    have ht := ih (fun x hx => h x (List.mem_cons_of_mem _ hx))
    simp only [List.cons_append, starRun, hc, if_true]
    rw [List.mem_append]
    left
    rw [List.mem_map]
    exact ⟨(t, r), ht, rfl⟩

theorem run_cls (p : Char → Bool) (s m r : Str) :
    (m, r) ∈ (Pat.cls p).run s ↔ ∃ c, p c = true ∧ m = [c] ∧ s = c :: r := by
  cases s with
  | nil => simp [Pat.run]
  | cons c t =>
    simp only [Pat.run]
    split
    · rename_i hp
      simp only [List.mem_singleton, Prod.mk.injEq, List.cons.injEq]
      constructor
      · rintro ⟨rfl, rfl⟩; exact ⟨c, hp, rfl, rfl, rfl⟩
      · rintro ⟨c', _, rfl, rfl, rfl⟩; exact ⟨rfl, rfl⟩
    · rename_i hp
      simp only [List.not_mem_nil, false_iff, not_exists, not_and, List.cons.injEq]
      rintro c' hp' _ rfl
      exact absurd hp' hp

theorem run_seq (a b : Pat) (s m r : Str) :
    (m, r) ∈ (Pat.seq a b).run s ↔
      ∃ m1 r1 m2, (m1, r1) ∈ a.run s ∧ (m2, r) ∈ b.run r1 ∧ m = m1 ++ m2 := by
  simp only [Pat.run, List.mem_flatMap, List.mem_map, Prod.mk.injEq, Prod.exists]
  constructor
  · rintro ⟨m1, r1, h1, m2, r2, h2, rfl, rfl⟩
    exact ⟨m1, r1, m2, h1, h2, rfl⟩
  · rintro ⟨m1, r1, m2, h1, h2, rfl⟩
    exact ⟨m1, r1, h1, m2, r, h2, rfl, rfl⟩

theorem run_alt (a b : Pat) (s : Str) (x : Str × Str) :
    x ∈ (Pat.alt a b).run s ↔ x ∈ a.run s ∨ x ∈ b.run s := by
  simp [Pat.run]

theorem run_opt (a : Pat) (s : Str) (x : Str × Str) :
    x ∈ (Pat.opt a).run s ↔ x ∈ a.run s ∨ x = ([], s) := by
  simp [Pat.run]

theorem run_star (p : Char → Bool) (s : Str) : (Pat.star p).run s = starRun p s := by
  simp [Pat.run]

theorem run_split (pat : Pat) (s m r : Str) (h : (m, r) ∈ pat.run s) : s = m ++ r := by
  induction pat generalizing s m r with
  | cls p =>
    obtain ⟨c, _, rfl, rfl⟩ := (run_cls p s m r).1 h
    rfl
  | seq a b iha ihb =>
    obtain ⟨m1, r1, m2, h1, h2, rfl⟩ := (run_seq a b s m r).1 h
    rw [iha _ _ _ h1, ihb _ _ _ h2, List.append_assoc]
  | alt a b iha ihb =>
    rcases (run_alt a b s _).1 h with h | h
    · exact iha _ _ _ h
    · exact ihb _ _ _ h
  | opt a iha =>
    rcases (run_opt a s _).1 h with h | h
    · exact iha _ _ _ h
    · simp only [Prod.mk.injEq] at h; obtain ⟨rfl, rfl⟩ := h; rfl
  | star p => rw [run_star] at h; exact (starRun_sound p s m r h).1

/-! ## Lemmas on characters -/

theorem eq_of_toNat_eq {a c : Char} (h : a.toNat = c.toNat) : a = c := by
  rw [← Char.ofNat_toNat a, ← Char.ofNat_toNat c, h]

theorem isDigit_iff (c : Char) : isDigit c = true ↔ 48 ≤ c.toNat ∧ c.toNat ≤ 57 := by
  unfold isDigit
  rw [Bool.and_eq_true, decide_eq_true_eq, decide_eq_true_eq]

theorem eqIgnoreCase_dot (c : Char) : eqIgnoreCase '.' c = true ↔ c = '.' := by
  constructor
  · intro h
    apply eq_of_toNat_eq
    have h' : upperCode 46 = upperCode c.toNat := by
      simpa [eqIgnoreCase] using h
    have h46 : upperCode 46 = 46 := by decide
    rw [h46] at h'
    show c.toNat = 46
    unfold upperCode at h'
    split at h' <;> omega
  · rintro rfl
    decide

theorem eqExact_iff (a c : Char) : eqExact a c = true ↔ c = a := by
  unfold eqExact
  rw [beq_iff_eq]
  exact eq_comm

theorem isDigit_ne_dot {c : Char} (h : isDigit c = true) : c ≠ '.' := by
  rintro rfl
  exact absurd h (by decide)

/-! ## Lemmas on the patterns of `extractAmount` -/

theorem run_plus_sound (p : Char → Bool) (s m r : Str) (h : (m, r) ∈ (Pat.plus p).run s) :
    s = m ++ r ∧ m ≠ [] ∧ ∀ c ∈ m, p c = true := by
  refine ⟨run_split _ _ _ _ h, ?_⟩
  obtain ⟨m1, r1, m2, h1, h2, rfl⟩ := (run_seq _ _ s m r).1 h
  obtain ⟨c, hc, rfl, rfl⟩ := (run_cls p _ _ _).1 h1
  rw [run_star] at h2
  refine ⟨by simp, ?_⟩
  intro x hx
  rcases List.mem_append.1 hx with hx | hx
  · rw [List.mem_singleton] at hx; rw [hx]; exact hc
  · exact (starRun_sound p _ _ _ h2).2 x hx

theorem run_plus_complete (p : Char → Bool) (m r : Str) (hne : m ≠ [])
    (h : ∀ c ∈ m, p c = true) : (m, r) ∈ (Pat.plus p).run (m ++ r) := by
  cases m with
  | nil => exact absurd rfl hne
  | cons c t =>
    refine (run_seq _ _ _ _ _).2 ⟨[c], t ++ r, t, ?_, ?_, rfl⟩
    · exact (run_cls p _ _ _).2 ⟨c, h c (List.mem_cons_self _ _), rfl, rfl⟩
    · rw [run_star]
      exact starRun_complete p t r fun x hx => h x (List.mem_cons_of_mem _ hx)

theorem amountRegexGroup_sound (s m r : Str) (h : (m, r) ∈ amountRegexGroup.run s) :
    IsAmountToken m := by
  obtain ⟨ip, r1, m2, h1, h2, rfl⟩ := (run_seq _ _ s m r).1 h
  obtain ⟨dot, r2, fp, h3, h4, rfl⟩ := (run_seq _ _ r1 m2 r).1 h2
  obtain ⟨_, hne, hip⟩ := run_plus_sound isDigit _ _ _ h1
  rw [run_star] at h4
  refine ⟨ip, dot, fp, by simp, hne, hip, ?_, (starRun_sound _ _ _ _ h4).2⟩
  rcases (run_opt _ _ _).1 h3 with h3 | h3
  · obtain ⟨c, hc, rfl, _⟩ := (run_cls _ _ _ _).1 h3
    rw [(eqIgnoreCase_dot c).1 hc]
    exact Or.inr rfl
  · simp only [Prod.mk.injEq] at h3
    exact Or.inl h3.1

theorem fallbackRegex_sound (s m r : Str) (h : (m, r) ∈ fallbackRegex.run s) :
    IsDecimal2 m ∧ s = m ++ r := by
  refine ⟨?_, run_split _ _ _ _ h⟩
  obtain ⟨ip, r1, m2, h1, h2, rfl⟩ := (run_seq _ _ s m r).1 h
  obtain ⟨dot, r2, m3, h3, h4, rfl⟩ := (run_seq _ _ r1 m2 r).1 h2
  obtain ⟨d1, r3, d2, h5, h6, rfl⟩ := (run_seq _ _ r2 m3 r).1 h4
  obtain ⟨_, hne, hip⟩ := run_plus_sound isDigit _ _ _ h1
  obtain ⟨c, hc, rfl, _⟩ := (run_cls _ _ _ _).1 h3
  obtain ⟨f1, hf1, rfl, _⟩ := (run_cls _ _ _ _).1 h5
  obtain ⟨f2, hf2, rfl, _⟩ := (run_cls _ _ _ _).1 h6
  rw [(eqExact_iff _ _).1 hc]
  exact ⟨ip, f1, f2, rfl, hne, hip, hf1, hf2⟩

theorem fallbackRegex_complete (m r : Str) (h : IsDecimal2 m) :
    ∃ x, x ∈ fallbackRegex.run (m ++ r) := by
  obtain ⟨ip, f1, f2, rfl, hne, hip, hf1, hf2⟩ := h
  refine ⟨(ip ++ (['.'] ++ ([f1] ++ [f2])), r), ?_⟩
  refine (run_seq _ _ _ _ _).2 ⟨ip, '.' :: f1 :: f2 :: r, _, ?_, ?_, rfl⟩
  · have := run_plus_complete isDigit ip ('.' :: f1 :: f2 :: r) hne hip
    simpa using this
  refine (run_seq _ _ _ _ _).2 ⟨['.'], f1 :: f2 :: r, _, ?_, ?_, rfl⟩
  · exact (run_cls _ _ _ _).2 ⟨'.', (eqExact_iff _ _).2 rfl, rfl, rfl⟩
  refine (run_seq _ _ _ _ _).2 ⟨[f1], f2 :: r, _, ?_, ?_, rfl⟩
  · exact (run_cls _ _ _ _).2 ⟨f1, hf1, rfl, rfl⟩
  · exact (run_cls _ _ _ _).2 ⟨f2, hf2, rfl, rfl⟩

theorem matchAt_some (pat : Pat) (s m : Str) (h : matchAt pat s = some m) :
    ∃ r, (m, r) ∈ pat.run s := by
  unfold matchAt at h
  have hm := List.mem_of_mem_head? (Option.mem_def.2 h)
  obtain ⟨⟨m', r⟩, hx, rfl⟩ := List.mem_map.1 hm
  exact ⟨r, hx⟩

theorem matchAt_ne_none (pat : Pat) (s : Str) (x : Str × Str) (h : x ∈ pat.run s) :
    matchAt pat s ≠ none := by
  unfold matchAt
  cases hr : pat.run s with
  | nil => rw [hr] at h; exact absurd h (List.not_mem_nil _)
  | cons a l => simp

theorem matchAt1_some (hd grp : Pat) (s m0 m1 : Str)
    (h : matchAt1 hd grp s = some (m0, m1)) :
    ∃ a r1 r, (a, r1) ∈ hd.run s ∧ (m1, r) ∈ grp.run r1 ∧ m0 = a ++ m1 := by
  unfold matchAt1 at h
  have hm := List.mem_of_mem_head? (Option.mem_def.2 h)
  obtain ⟨⟨a, r1⟩, ha, hb⟩ := List.mem_flatMap.1 hm
  obtain ⟨⟨m2, r⟩, hc, heq⟩ := List.mem_map.1 hb
  simp only [Prod.mk.injEq] at heq
  obtain ⟨rfl, rfl⟩ := heq
  exact ⟨a, r1, r, ha, hc, rfl⟩

/-! ## Lemmas on searching, splitting and sorting -/

theorem searchFrom_some {α : Type} (f : Str → Option α) (s : Str) (r : α)
    (h : searchFrom f s = some r) :
    ∃ pre s', s = pre ++ s' ∧ f s' = some r ∧
      ∀ pre' s'', s = pre' ++ s'' → pre'.length < pre.length → f s'' = none := by
  induction s with
  | nil =>
    refine ⟨[], [], rfl, by simpa [searchFrom] using h, ?_⟩
    intro pre' s'' _ hlt
    exact absurd hlt (Nat.not_lt_zero _)
  | cons c t ih =>
    unfold searchFrom at h
    split at h
    · rename_i r' hf
      cases h
      refine ⟨[], c :: t, rfl, hf, ?_⟩
      intro pre' s'' _ hlt
      exact absurd hlt (Nat.not_lt_zero _)
    · rename_i hf
      obtain ⟨pre, s', hs, hfs, hmin⟩ := ih h
      refine ⟨c :: pre, s', by rw [hs]; rfl, hfs, ?_⟩
      intro pre' s'' hs' hlt
      cases pre' with
      | nil =>
        have hs2 : s'' = c :: t := by simpa using hs'.symm
        rw [hs2]; exact hf
      | cons c' p' =>
        simp only [List.cons_append, List.cons.injEq] at hs'
        exact hmin p' s'' hs'.2 (by simpa using hlt)

theorem searchFrom_none {α : Type} (f : Str → Option α) (s : Str)
    (h : searchFrom f s = none) (pre s' : Str) (hs : s = pre ++ s') : f s' = none := by
  induction s generalizing pre with
  | nil =>
    have : s' = [] := by
      have := congrArg List.length hs
      simp at this
      exact List.length_eq_zero.1 (by omega)
    rw [this]
    simpa [searchFrom] using h
  | cons c t ih =>
    unfold searchFrom at h
    split at h
    · cases h
    · rename_i hf
      cases pre with
      | nil =>
        have hs2 : s' = c :: t := by simpa using hs.symm
        rw [hs2]; exact hf
      | cons c' p' =>
        simp only [List.cons_append, List.cons.injEq] at hs
        exact ih h p' hs.2

theorem mem_of_mem_split (sep : Char) (s l : Str) (h : l ∈ split sep s) :
    ∀ c ∈ l, c ∈ s := by
  induction s generalizing l with
  | nil =>
    simp only [split, List.mem_singleton] at h
    rw [h]
    intro c hc
    exact hc
  | cons a t ih =>
    unfold split at h
    split at h
    · rcases List.mem_cons.1 h with rfl | h
      · intro c hc
        exact absurd hc (List.not_mem_nil _)
      · intro c hc
        exact List.mem_cons_of_mem _ (ih l h c hc)
    · split at h
      · rename_i l0 ls heq
        rcases List.mem_cons.1 h with rfl | h
        · intro c hc
          rcases List.mem_cons.1 hc with rfl | hc
          · exact List.mem_cons_self _ _
          · exact List.mem_cons_of_mem _ (ih l0 (by rw [heq]; exact List.mem_cons_self _ _) c hc)
        · intro c hc
          exact List.mem_cons_of_mem _ (ih l (by rw [heq]; exact List.mem_cons_of_mem _ h) c hc)
      · rw [List.mem_singleton] at h
        rw [h]
        intro c hc
        rw [List.mem_singleton] at hc
        rw [hc]
        exact List.mem_cons_self _ _

theorem sortWith_head {α : Type} (cmp : α → α → Int) (l : List α) (hne : l ≠ [])
    (htot : ∀ a ∈ l, ∀ b ∈ l, cmp a b ≤ 0 ∨ cmp b a ≤ 0)
    (htr : ∀ a ∈ l, ∀ b ∈ l, ∀ c ∈ l, cmp a b ≤ 0 → cmp b c ≤ 0 → cmp a c ≤ 0) :
    ∃ h t, sortWith cmp l = h :: t ∧ h ∈ l ∧ ∀ x ∈ l, cmp h x ≤ 0 := by
  induction l with
  | nil => exact absurd rfl hne
  | cons a l ih =>
    have haa : cmp a a ≤ 0 := by
      rcases htot a (List.mem_cons_self _ _) a (List.mem_cons_self _ _) with h | h
      · exact h
      · exact h
    by_cases hl : l = []
    · subst hl
      refine ⟨a, [], rfl, List.mem_cons_self _ _, ?_⟩
      intro x hx
      rw [List.mem_singleton] at hx
      rw [hx]
      exact haa
    · obtain ⟨h, t, hs, hh, hmax⟩ := ih hl
        (fun x hx y hy => htot x (List.mem_cons_of_mem _ hx) y (List.mem_cons_of_mem _ hy))
        (fun x hx y hy z hz => htr x (List.mem_cons_of_mem _ hx) y (List.mem_cons_of_mem _ hy)
          z (List.mem_cons_of_mem _ hz))
      by_cases hc : cmp a h ≤ 0
      · refine ⟨a, h :: t, by simp [sortWith, hs, insertSorted, hc], List.mem_cons_self _ _, ?_⟩
        intro x hx
        rcases List.mem_cons.1 hx with rfl | hx
        · exact haa
        · exact htr a (List.mem_cons_self _ _) h (List.mem_cons_of_mem _ hh) x
            (List.mem_cons_of_mem _ hx) hc (hmax x hx)
      · refine ⟨h, insertSorted cmp a t, by simp [sortWith, hs, insertSorted, hc],
          List.mem_cons_of_mem _ hh, ?_⟩
        intro x hx
        rcases List.mem_cons.1 hx with rfl | hx
        · rcases htot x (List.mem_cons_self _ _) h (List.mem_cons_of_mem _ hh) with h1 | h1
          · exact absurd h1 hc
          · exact h1
        · exact hmax x hx

theorem subSign_le_zero (x y : Dbl) (hx : x ≠ .nan) (hy : y ≠ .nan) :
    subSign x y ≤ 0 ↔ Dbl.le x y := by
  cases x <;> cases y <;> simp only [subSign, Dbl.le] at *
  all_goals try contradiction
  · rename_i a b
    constructor
    · intro h
      by_contra hlt
      have h1 : ¬ a < b := by omega
      have h2 : b < a := by omega
      simp [h1, h2] at h
    · intro h
      split
      · decide
      · split
        · omega
        · decide
  · simp
  · simp
  · simp

theorem Dbl.le_total (x y : Dbl) (hx : x ≠ .nan) (hy : y ≠ .nan) : Dbl.le x y ∨ Dbl.le y x := by
  cases x <;> cases y <;> simp only [Dbl.le] at * <;> try contradiction
  · omega
  · exact Or.inl trivial
  · exact Or.inr trivial
  · exact Or.inl trivial

theorem Dbl.le_trans (x y z : Dbl) (h1 : Dbl.le x y) (h2 : Dbl.le y z) : Dbl.le x z := by
  cases x <;> cases y <;> cases z <;> simp only [Dbl.le] at *
  all_goals omega

theorem roundToDouble_ne_nan (n d : Nat) : roundToDouble n d ≠ .nan := by
  unfold roundToDouble
  dsimp only
  split <;> exact Dbl.noConfusion

theorem parseFloat_ne_nan (m : Str) (h : IsAmountToken m) : parseFloat m ≠ .nan := by
  obtain ⟨ip, dot, fp, rfl, hne, hip, _, _⟩ := h
  cases ip with
  | nil => exact absurd rfl hne
  | cons d t =>
    have hd : isDigit d = true := hip d (List.mem_cons_self _ _)
    unfold parseFloat
    dsimp only
    rw [if_neg]
    · exact roundToDouble_ne_nan _ _
    · simp [List.takeWhile, hd]

/-! ## `extractAmount`: the keyword path -/

theorem mem_amountCandidates (text c : Str) (h : c ∈ amountCandidates text) :
    IsAmountToken c ∧ ∀ x ∈ c, x ∈ text := by
  unfold amountCandidates at h
  obtain ⟨line, hline, hm⟩ := List.mem_filterMap.1 h
  unfold amountMatch at hm
  obtain ⟨⟨m0, m1⟩, hs, heq⟩ := Option.map_eq_some'.1 hm
  simp only at heq
  subst heq
  obtain ⟨pre, s', hcl, hf, _⟩ := searchFrom_some _ _ _ hs
  obtain ⟨a, r1, r, ha, hg, _⟩ := matchAt1_some _ _ _ _ _ hf
  refine ⟨amountRegexGroup_sound _ _ _ hg, ?_⟩
  intro x hx
  have h1 : x ∈ r1 := by
    rw [run_split _ _ _ _ hg]
    exact List.mem_append_left _ hx
  have h2 : x ∈ s' := by
    rw [run_split _ _ _ _ ha]
    exact List.mem_append_right _ h1
  have h3 : x ∈ removeCommas line := by
    rw [hcl]
    exact List.mem_append_right _ h2
  have h4 : x ∈ line := by
    unfold removeCommas at h3
    exact (List.mem_filter.1 h3).1
  exact mem_of_mem_split _ _ _ hline x h4

theorem amountCompare_le_zero (a b : Str) (ha : IsAmountToken a) (hb : IsAmountToken b) :
    amountCompare a b ≤ 0 ↔ Dbl.le (parseFloat b) (parseFloat a) :=
  subSign_le_zero _ _ (parseFloat_ne_nan b hb) (parseFloat_ne_nan a ha)

theorem sorted_candidates_head (l : List Str) (hne : l ≠ []) (htok : ∀ c ∈ l, IsAmountToken c) :
    ∃ h t, sortWith amountCompare l = h :: t ∧ h ∈ l ∧
      ∀ x ∈ l, Dbl.le (parseFloat x) (parseFloat h) := by
  obtain ⟨h, t, hs, hh, hmax⟩ := sortWith_head amountCompare l hne
    (fun a ha b hb => by
      rw [amountCompare_le_zero a b (htok a ha) (htok b hb),
        amountCompare_le_zero b a (htok b hb) (htok a ha)]
      exact Dbl.le_total _ _ (parseFloat_ne_nan b (htok b hb)) (parseFloat_ne_nan a (htok a ha)))
    (fun a ha b hb c hc => by
      rw [amountCompare_le_zero a b (htok a ha) (htok b hb),
        amountCompare_le_zero b c (htok b hb) (htok c hc),
        amountCompare_le_zero a c (htok a ha) (htok c hc)]
      intro h1 h2
      exact Dbl.le_trans _ _ _ h2 h1)
  refine ⟨h, t, hs, hh, ?_⟩
  intro x hx
  exact (amountCompare_le_zero h x (htok h hh) (htok x hx)).1 (hmax x hx)

theorem extractAmount_of_candidates (text : Str) (hne : amountCandidates text ≠ []) :
    ∃ t, sortWith amountCompare (amountCandidates text) = extractAmount text :: t := by
  obtain ⟨h, t, hs, _, _⟩ := sorted_candidates_head _ hne
    (fun c hc => (mem_amountCandidates text c hc).1)
  refine ⟨t, ?_⟩
  have hlen : (amountCandidates text).length > 0 := List.length_pos.2 hne
  unfold extractAmount
  simp only [hlen, if_true, hs, List.headD_cons]

set_option exponentiation.threshold 4000 in
set_option maxRecDepth 100000 in
/-- C1. On the keyword path `extractAmount` returns one of the candidates, one
per line: the first capture of `amountRegex` in the line without its commas.
The string returned is a candidate as matched, and its value as `parseFloat`
reads it is at least the value of every candidate.  On
`"Subtotal 200.00\nTotal: 450.00"` the result is `"450.00"`. -/
theorem extractAmount_keyword_largest (text : Str) (h : amountCandidates text ≠ []) :
    (extractAmount text ∈ amountCandidates text ∧
      ∀ c ∈ amountCandidates text, Dbl.le (parseFloat c) (parseFloat (extractAmount text))) ∧
    extractAmount "Subtotal 200.00\nTotal: 450.00".toList = "450.00".toList := by
  refine ⟨?_, by decide⟩
  obtain ⟨t, ht⟩ := extractAmount_of_candidates text h
  obtain ⟨h', t', hs, hh, hmax⟩ := sorted_candidates_head _ h
    (fun c hc => (mem_amountCandidates text c hc).1)
  rw [ht] at hs
  cases hs
  exact ⟨hh, hmax⟩

set_option maxRecDepth 100000 in
/-- Witness of C1 on a receipt with a subtotal line and a total line. -/
theorem extractAmount_keyword_largest_witness :
    amountCandidates "Subtotal 200.00\nTotal: 450.00".toList ≠ [] ∧
    (extractAmount "Subtotal 200.00\nTotal: 450.00".toList ∈
        amountCandidates "Subtotal 200.00\nTotal: 450.00".toList ∧
      ∀ c ∈ amountCandidates "Subtotal 200.00\nTotal: 450.00".toList,
        Dbl.le (parseFloat c) (parseFloat (extractAmount "Subtotal 200.00\nTotal: 450.00".toList))) :=
  ⟨by decide, (extractAmount_keyword_largest _ (by decide)).1⟩

/-! ## Lemmas on the global match -/

theorem matchAllFrom_skip (f : Str → Option Str) (s : Str) (k : Nat) (hk : k ≤ s.length) :
    matchAllFrom f k s = matchAllFrom f 0 (s.drop k) := by
  induction s generalizing k with
  | nil =>
    have : k = 0 := by simpa using hk
    subst this
    rfl
  | cons c t ih =>
    cases k with
    | zero => rfl
    | succ k =>
      have hk' : k ≤ t.length := by simpa using hk
      simp only [matchAllFrom, List.drop_succ_cons]
      exact ih k hk'

theorem matchAllFrom_match (f : Str → Option Str) (m post : Str) (hne : m ≠ [])
    (h : f (m ++ post) = some m) :
    matchAllFrom f 0 (m ++ post) = m :: matchAllFrom f 0 post := by
  cases m with
  | nil => exact absurd rfl hne
  | cons c t =>
    have h' : f (c :: (t ++ post)) = some (c :: t) := h
    have h2 := matchAllFrom_skip f (t ++ post) t.length (by simp)
    rw [List.drop_left] at h2
    rw [List.cons_append]
    simp only [matchAllFrom, h', List.length_cons, Nat.add_sub_cancel]
    rw [h2]

theorem matchAllFrom_no_match (f : Str → Option Str) (c : Char) (t : Str)
    (h : f (c :: t) = none) : matchAllFrom f 0 (c :: t) = matchAllFrom f 0 t := by
  simp only [matchAllFrom, h]

theorem mem_matchAllFrom (f : Str → Option Str) (s : Str) (k : Nat) (m : Str)
    (h : m ∈ matchAllFrom f k s) : ∃ pre s', s = pre ++ s' ∧ f s' = some m := by
  induction s generalizing k with
  | nil =>
    cases hf : f [] with
    | none =>
      simp only [matchAllFrom, hf] at h
      exact absurd h (List.not_mem_nil _)
    | some m' =>
      simp only [matchAllFrom, hf, List.mem_singleton] at h
      subst h
      exact ⟨[], [], rfl, hf⟩
  | cons c t ih =>
    cases k with
    | succ k =>
      simp only [matchAllFrom] at h
      obtain ⟨pre, s', hs, hf⟩ := ih k h
      exact ⟨c :: pre, s', by rw [hs]; rfl, hf⟩
    | zero =>
      cases hf : f (c :: t) with
      | some m' =>
        simp only [matchAllFrom, hf] at h
        rcases List.mem_cons.1 h with rfl | h
        · exact ⟨[], c :: t, rfl, hf⟩
        · obtain ⟨pre, s', hs, hf'⟩ := ih _ h
          exact ⟨c :: pre, s', by rw [hs]; rfl, hf'⟩
      | none =>
        simp only [matchAllFrom, hf] at h
        obtain ⟨pre, s', hs, hf'⟩ := ih _ h
        exact ⟨c :: pre, s', by rw [hs]; rfl, hf'⟩

theorem matchAllFrom_eq_nil (f : Str → Option Str) (s : Str)
    (h : ∀ pre s', s = pre ++ s' → f s' = none) : matchAllFrom f 0 s = [] := by
  induction s with
  | nil => simp only [matchAllFrom, h [] [] rfl]
  | cons c t ih =>
    rw [matchAllFrom_no_match f c t (h [] (c :: t) rfl)]
    exact ih fun pre s' hs => h (c :: pre) s' (by rw [hs]; rfl)

theorem matchAllFrom_ne_nil (f : Str → Option Str) (s pre s' : Str) (hs : s = pre ++ s')
    (h : f s' ≠ none) : matchAllFrom f 0 s ≠ [] := by
  induction s generalizing pre with
  | nil =>
    have hs' : s' = [] := by
      have := congrArg List.length hs
      simp at this
      exact List.length_eq_zero.1 (by omega)
    subst hs'
    cases hf : f [] with
    | none => exact absurd hf h
    | some m' => simp only [matchAllFrom, hf]; exact List.cons_ne_nil _ _
  | cons c t ih =>
    cases hf : f (c :: t) with
    | some m' => simp only [matchAllFrom, hf]; exact List.cons_ne_nil _ _
    | none =>
      rw [matchAllFrom_no_match f c t hf]
      cases pre with
      | nil =>
        have hs2 : s' = c :: t := by simpa using hs.symm
        rw [hs2] at h
        exact absurd hf h
      | cons c' p' =>
        simp only [List.cons_append, List.cons.injEq] at hs
        exact ih p' hs.2

theorem matchAllFrom_getLast (f : Str → Option Str)
    (hf : ∀ s m, f s = some m → m ≠ [] ∧ ∃ r, s = m ++ r) (n : Nat) :
    ∀ s : Str, s.length ≤ n → ∀ m, (matchAllFrom f 0 s).getLast? = some m →
      ∃ pre post, s = pre ++ m ++ post ∧ f (m ++ post) = some m ∧
        matchAllFrom f 0 post = [] := by
  induction n with
  | zero =>
    intro s hs m hm
    have : s = [] := List.length_eq_zero.1 (by omega)
    subst this
    cases hfm : f [] with
    | some m' =>
      obtain ⟨hne, r, hr⟩ := hf _ _ hfm
      have : m' = [] := by
        have := congrArg List.length hr
        simp at this
        exact List.length_eq_zero.1 (by omega)
      exact absurd this hne
    | none => simp [matchAllFrom, hfm] at hm
  | succ n ih =>
    intro s hs m hm
    cases s with
    | nil => exact ih [] (by simp) m hm
    | cons c t =>
      cases hfc : f (c :: t) with
      | none =>
        rw [matchAllFrom_no_match f c t hfc] at hm
        obtain ⟨pre, post, hs', hfm, hnil⟩ := ih t (by simpa using hs) m hm
        exact ⟨c :: pre, post, by rw [hs']; rfl, hfm, hnil⟩
      | some m1 =>
        obtain ⟨hne, r, hr⟩ := hf _ _ hfc
        rw [hr] at hfc hm
        rw [matchAllFrom_match f m1 r hne hfc] at hm
        have hlen : r.length ≤ n := by
          have h1 := congrArg List.length hr
          have h2 : 0 < m1.length := List.length_pos.2 hne
          simp only [List.length_cons, List.length_append] at h1 hs
          omega
        cases hrest : matchAllFrom f 0 r with
        | nil =>
          rw [hrest] at hm
          simp only [List.getLast?_singleton, Option.some.injEq] at hm
          subst hm
          exact ⟨[], r, by rw [hr]; rfl, hfc, hrest⟩
        | cons x xs =>
          rw [hrest, List.getLast?_cons_cons] at hm
          rw [← hrest] at hm
          obtain ⟨pre, post, hs', hfm, hnil⟩ := ih r hlen m hm
          refine ⟨m1 ++ pre, post, ?_, hfm, hnil⟩
          rw [hr, hs']
          simp

/-! ## `extractAmount`: the fallback path, the empty result and the output format -/

theorem isDecimal2_ne_nil {m : Str} (h : IsDecimal2 m) : m ≠ [] := by
  obtain ⟨ip, f1, f2, rfl, _, _, _, _⟩ := h
  simp

theorem IsDecimal2.isAmountToken {m : Str} (h : IsDecimal2 m) : IsAmountToken m := by
  obtain ⟨ip, f1, f2, rfl, hne, hip, hf1, hf2⟩ := h
  refine ⟨ip, ['.'], [f1, f2], by simp, hne, hip, Or.inr rfl, ?_⟩
  intro c hc
  rcases List.mem_cons.1 hc with rfl | hc
  · exact hf1
  · rw [List.mem_singleton] at hc
    rw [hc]
    exact hf2

theorem fallback_matchAt (s m : Str) (h : matchAt fallbackRegex s = some m) :
    IsDecimal2 m ∧ ∃ r, s = m ++ r := by
  obtain ⟨r, hr⟩ := matchAt_some _ _ _ h
  obtain ⟨h1, h2⟩ := fallbackRegex_sound _ _ _ hr
  exact ⟨h1, r, h2⟩

theorem fallbackMatches_ne_nil (text pre m post : Str) (hs : text = pre ++ m ++ post)
    (hm : IsDecimal2 m) : fallbackMatches text ≠ [] := by
  obtain ⟨x, hx⟩ := fallbackRegex_complete m post hm
  exact matchAllFrom_ne_nil _ text pre (m ++ post) (by rw [hs, List.append_assoc])
    (matchAt_ne_none _ _ x hx)

theorem fallbackMatches_last (text m : Str) (h : (fallbackMatches text).getLast? = some m) :
    IsDecimal2 m ∧ ∃ pre post, text = pre ++ m ++ post ∧
      ∀ a m' b, post = a ++ m' ++ b → ¬ IsDecimal2 m' := by
  obtain ⟨pre, post, hs, hf, hnil⟩ := matchAllFrom_getLast (matchAt fallbackRegex)
    (fun s m hm => ⟨isDecimal2_ne_nil (fallback_matchAt s m hm).1, (fallback_matchAt s m hm).2⟩)
    text.length text (Nat.le_refl _) m h
  refine ⟨(fallback_matchAt _ _ hf).1, pre, post, hs, ?_⟩
  intro a m' b hp hm'
  exact fallbackMatches_ne_nil post a m' b hp hm' hnil

theorem extractAmount_of_no_candidates (text : Str) (hc : amountCandidates text = []) :
    extractAmount text = ((fallbackMatches text).getLast?).getD [] := by
  unfold extractAmount
  simp only [hc, List.length_nil, gt_iff_lt, Nat.lt_irrefl, if_false]
  cases (fallbackMatches text).getLast? <;> rfl

theorem IsAmountToken.format {m : Str} (h : IsAmountToken m) :
    (∃ d t, m = d :: t ∧ isDigit d = true) ∧ (∀ c ∈ m, isDigit c = true ∨ c = '.') ∧
      m.count '.' ≤ 1 := by
  obtain ⟨ip, dot, fp, rfl, hne, hip, hdot, hfp⟩ := h
  refine ⟨?_, ?_, ?_⟩
  · cases ip with
    | nil => exact absurd rfl hne
    | cons d t => exact ⟨d, t ++ dot ++ fp, by simp, hip d (List.mem_cons_self _ _)⟩
  · intro c hc
    rcases List.mem_append.1 hc with hc | hc
    · rcases List.mem_append.1 hc with hc | hc
      · exact Or.inl (hip c hc)
      · rcases hdot with rfl | rfl
        · exact absurd hc (List.not_mem_nil _)
        · exact Or.inr (List.mem_singleton.1 hc)
    · exact Or.inl (hfp c hc)
  · have h1 : ip.count '.' = 0 :=
      List.count_eq_zero.2 fun hmem => isDigit_ne_dot (hip _ hmem) rfl
    have h2 : fp.count '.' = 0 :=
      List.count_eq_zero.2 fun hmem => isDigit_ne_dot (hfp _ hmem) rfl
    rw [List.count_append, List.count_append, h1, h2]
    rcases hdot with rfl | rfl
    · simp
    · simp

theorem extractAmount_token (text : Str) : extractAmount text = [] ∨ IsAmountToken (extractAmount text) := by
  by_cases hc : amountCandidates text = []
  · rw [extractAmount_of_no_candidates text hc]
    cases hl : (fallbackMatches text).getLast? with
    | none => exact Or.inl rfl
    | some m => exact Or.inr (fallbackMatches_last text m hl).1.isAmountToken
  · obtain ⟨t, ht⟩ := extractAmount_of_candidates text hc
    obtain ⟨h', t', hs, hh, _⟩ := sorted_candidates_head _ hc
      (fun c hc => (mem_amountCandidates text c hc).1)
    rw [ht] at hs
    cases hs
    exact Or.inr (mem_amountCandidates text _ hh).1

theorem isAmountToken_ne_nil {m : Str} (h : IsAmountToken m) : m ≠ [] := by
  obtain ⟨⟨d, t, rfl, _⟩, _, _⟩ := h.format
  exact List.cons_ne_nil _ _

/-- C2. On the fallback path (no line yields a keyword candidate, and the text
holds a substring of the form digits, dot, two digits) `extractAmount` returns
the last match of the left-to-right scan with `fallbackRegex`: a token of
that form after which the text holds no further one.  The rank of the match
plays no part: `"99.99"` is returned when it comes last, `"12.50"` when that
comes last. -/
theorem extractAmount_fallback_last (text : Str) (hc : amountCandidates text = [])
    (hd : ∃ pre m post, text = pre ++ m ++ post ∧ IsDecimal2 m) :
    (∃ ms m, fallbackMatches text = ms ++ [m] ∧ extractAmount text = m ∧ IsDecimal2 m ∧
      ∃ pre post, text = pre ++ m ++ post ∧ ∀ a m' b, post = a ++ m' ++ b → ¬ IsDecimal2 m') ∧
    extractAmount "random text 12.50 and then 99.99 end".toList = "99.99".toList ∧
    extractAmount "random text 99.99 and then 12.50 end".toList = "12.50".toList := by
  refine ⟨?_, by decide, by decide⟩
  obtain ⟨pre, m0, post, hs, hm0⟩ := hd
  have hne := fallbackMatches_ne_nil text pre m0 post hs hm0
  cases hl : (fallbackMatches text).getLast? with
  | none => exact absurd (List.getLast?_eq_none_iff.1 hl) hne
  | some m =>
    obtain ⟨ms, hms⟩ := List.getLast?_eq_some_iff.1 hl
    obtain ⟨h1, h2⟩ := fallbackMatches_last text m hl
    refine ⟨ms, m, hms, ?_, h1, h2⟩
    rw [extractAmount_of_no_candidates text hc, hl]
    rfl

/-- Witness of C2 on a text with two bare decimals and no keyword. -/
theorem extractAmount_fallback_last_witness :
    ∃ ms m, fallbackMatches "random text 12.50 and then 99.99 end".toList = ms ++ [m] ∧
      extractAmount "random text 12.50 and then 99.99 end".toList = m ∧ IsDecimal2 m ∧
      ∃ pre post, "random text 12.50 and then 99.99 end".toList = pre ++ m ++ post ∧
        ∀ a m' b, post = a ++ m' ++ b → ¬ IsDecimal2 m' :=
  (extractAmount_fallback_last "random text 12.50 and then 99.99 end".toList (by decide)
    ⟨"random text ".toList, "12.50".toList, " and then 99.99 end".toList, by decide,
      "12".toList, '5', '0', by decide, by decide, by decide, by decide, by decide⟩).1

/-- C3. `extractAmount` returns the empty string exactly when no line yields a
keyword candidate and the text holds no substring of the form digits, dot, two
digits; in particular on every text without an ASCII digit. -/
theorem extractAmount_empty (text : Str) :
    (extractAmount text = [] ↔
      amountCandidates text = [] ∧ ¬ ∃ pre m post, text = pre ++ m ++ post ∧ IsDecimal2 m) ∧
    ((∀ c ∈ text, isDigit c = false) → extractAmount text = []) := by
  have key : extractAmount text = [] ↔
      amountCandidates text = [] ∧ ¬ ∃ pre m post, text = pre ++ m ++ post ∧ IsDecimal2 m := by
    constructor
    · intro he
      have hc : amountCandidates text = [] := by
        by_contra hc
        obtain ⟨t, ht⟩ := extractAmount_of_candidates text hc
        obtain ⟨h', t', hs, hh, _⟩ := sorted_candidates_head _ hc
          (fun c hc => (mem_amountCandidates text c hc).1)
        rw [ht] at hs
        cases hs
        exact isAmountToken_ne_nil (mem_amountCandidates text _ hh).1 he
      refine ⟨hc, ?_⟩
      rintro ⟨pre, m0, post, hs, hm0⟩
      have hne := fallbackMatches_ne_nil text pre m0 post hs hm0
      rw [extractAmount_of_no_candidates text hc] at he
      cases hl : (fallbackMatches text).getLast? with
      | none => exact hne (List.getLast?_eq_none_iff.1 hl)
      | some m =>
        rw [hl] at he
        exact isDecimal2_ne_nil (fallbackMatches_last text m hl).1 he
    · rintro ⟨hc, hno⟩
      rw [extractAmount_of_no_candidates text hc]
      have hnil : fallbackMatches text = [] := by
        apply matchAllFrom_eq_nil
        intro pre s' hs
        cases hf : matchAt fallbackRegex s' with
        | none => rfl
        | some m =>
          obtain ⟨hm, r, hr⟩ := fallback_matchAt s' m hf
          exact absurd ⟨pre, m, r, by rw [hs, hr, List.append_assoc], hm⟩ hno
      rw [hnil]
      rfl
  refine ⟨key, ?_⟩
  intro hnd
  rcases extractAmount_token text with h | h
  · exact h
  · exfalso
    obtain ⟨⟨d, t, hdt, hd⟩, _, _⟩ := h.format
    have hmem : d ∈ text := by
      by_cases hc : amountCandidates text = []
      · rw [extractAmount_of_no_candidates text hc] at hdt
        cases hl : (fallbackMatches text).getLast? with
        | none => rw [hl] at hdt; cases hdt
        | some m =>
          rw [hl] at hdt
          obtain ⟨_, pre, post, hs, _⟩ := fallbackMatches_last text m hl
          rw [hs]
          have : m = d :: t := hdt
          rw [this]
          simp
      · obtain ⟨t', ht⟩ := extractAmount_of_candidates text hc
        obtain ⟨h', t'', hs, hh, _⟩ := sorted_candidates_head _ hc
          (fun c hc => (mem_amountCandidates text c hc).1)
        rw [ht] at hs
        cases hs
        apply (mem_amountCandidates text _ hh).2
        rw [hdt]
        exact List.mem_cons_self _ _
    rw [hnd d hmem] at hd
    cases hd

/-- Witness of C3 on a text without any digit. -/
theorem extractAmount_empty_witness :
    (∀ c ∈ "Thank you, visit again".toList, isDigit c = false) ∧
      extractAmount "Thank you, visit again".toList = [] :=
  ⟨by decide, (extractAmount_empty "Thank you, visit again".toList).2 (by decide)⟩

/-- C4. The result of `extractAmount` is the empty string or a decimal string:
it starts with an ASCII digit, is made of ASCII digits and dots only, and
holds at most one dot; so it holds no comma, no white space, no sign, no
rupee sign and no letter. -/
theorem extractAmount_format (text : Str) :
    extractAmount text = [] ∨
      ((∃ d t, extractAmount text = d :: t ∧ isDigit d = true) ∧
        (∀ c ∈ extractAmount text, isDigit c = true ∨ c = '.') ∧
        (extractAmount text).count '.' ≤ 1 ∧
        ∀ c ∈ extractAmount text, c ≠ ',' ∧ isSpace c = false ∧ c ≠ '-' ∧ c ≠ '+' ∧
          c ≠ '₹' ∧ isAsciiLetter c = false) := by
  rcases extractAmount_token text with h | h
  · exact Or.inl h
  · obtain ⟨h1, h2, h3⟩ := h.format
    refine Or.inr ⟨h1, h2, h3, ?_⟩
    intro c hc
    rcases h2 c hc with hd | rfl
    · have hr := (isDigit_iff c).1 hd
      have hne : ∀ a : Char, ¬ (48 ≤ a.toNat ∧ a.toNat ≤ 57) → c ≠ a := by
        rintro a ha rfl
        exact ha hr
      refine ⟨hne _ (by decide), ?_, hne _ (by decide), hne _ (by decide), hne _ (by decide), ?_⟩
      · simp only [isSpace, Bool.or_eq_false_iff, beq_eq_false_iff_ne, ne_eq,
          Bool.and_eq_false_iff, decide_eq_false_iff_not]
        omega
      · simp only [isAsciiLetter, Bool.or_eq_false_iff, Bool.and_eq_false_iff,
          decide_eq_false_iff_not]
        omega
    · decide

/-! ## `extractDate` -/

theorem run_rep (p : Char → Bool) (n : Nat) (s m r : Str) :
    (m, r) ∈ (Pat.rep p (n + 1)).run s ↔
      m.length = n + 1 ∧ (∀ c ∈ m, p c = true) ∧ s = m ++ r := by
  induction n generalizing s m r with
  | zero =>
    simp only [Pat.rep]
    rw [run_cls]
    constructor
    · rintro ⟨c, hc, rfl, rfl⟩
      refine ⟨rfl, ?_, rfl⟩
      intro x hx
      rw [List.mem_singleton] at hx
      rw [hx]
      exact hc
    · rintro ⟨hlen, hp, rfl⟩
      obtain ⟨c, rfl⟩ := List.length_eq_one.1 hlen
      exact ⟨c, hp c (List.mem_singleton_self c), rfl, rfl⟩
  | succ n ih =>
    simp only [Pat.rep]
    rw [run_seq]
    constructor
    · rintro ⟨m1, r1, m2, h1, h2, rfl⟩
      obtain ⟨c, hc, rfl, rfl⟩ := (run_cls _ _ _ _).1 h1
      obtain ⟨hlen, hp, rfl⟩ := (ih _ _ _).1 h2
      refine ⟨by simp [hlen], ?_, rfl⟩
      intro x hx
      rcases List.mem_cons.1 hx with rfl | hx
      · exact hc
      · exact hp x hx
    · rintro ⟨hlen, hp, rfl⟩
      cases m with
      | nil => simp at hlen
      | cons c t =>
        refine ⟨[c], t ++ r, t, ?_, ?_, rfl⟩
        · exact (run_cls _ _ _ _).2 ⟨c, hp c (List.mem_cons_self _ _), rfl, rfl⟩
        · exact (ih _ _ _).2 ⟨by simpa using hlen, fun x hx => hp x (List.mem_cons_of_mem _ hx), rfl⟩

theorem run_date_branch (n1 n2 n3 : Nat) (s m r : Str) :
    (m, r) ∈ (Pat.seq (Pat.rep isDigit (n1 + 1)) (.seq (.cls isDateSep)
        (.seq (Pat.rep isDigit (n2 + 1)) (.seq (.cls isDateSep)
          (Pat.rep isDigit (n3 + 1)))))).run s ↔
      ∃ (a : Str) (s1 : Char) (b : Str) (s2 : Char) (c : Str),
        m = a ++ s1 :: b ++ s2 :: c ∧ s = m ++ r ∧ isDateSep s1 = true ∧ isDateSep s2 = true ∧
        (∀ x ∈ a, isDigit x = true) ∧ (∀ x ∈ b, isDigit x = true) ∧
        (∀ x ∈ c, isDigit x = true) ∧
        a.length = n1 + 1 ∧ b.length = n2 + 1 ∧ c.length = n3 + 1 := by
  constructor
  · intro h
    have hsplit := run_split _ _ _ _ h
    obtain ⟨a, r1, m2, h1, h2, rfl⟩ := (run_seq _ _ _ _ _).1 h
    obtain ⟨x1, r2, m3, h3, h4, rfl⟩ := (run_seq _ _ _ _ _).1 h2
    obtain ⟨b, r3, m4, h5, h6, rfl⟩ := (run_seq _ _ _ _ _).1 h4
    obtain ⟨x2, r4, c, h7, h8, rfl⟩ := (run_seq _ _ _ _ _).1 h6
    obtain ⟨la, ha, _⟩ := (run_rep _ _ _ _ _).1 h1
    obtain ⟨lb, hb, _⟩ := (run_rep _ _ _ _ _).1 h5
    obtain ⟨lc, hc, _⟩ := (run_rep _ _ _ _ _).1 h8
    obtain ⟨s1, hs1, rfl, _⟩ := (run_cls _ _ _ _).1 h3
    obtain ⟨s2, hs2, rfl, _⟩ := (run_cls _ _ _ _).1 h7
    exact ⟨a, s1, b, s2, c, by simp, hsplit, hs1, hs2, ha, hb, hc, la, lb, lc⟩
  · rintro ⟨a, s1, b, s2, c, rfl, rfl, hs1, hs2, ha, hb, hc, la, lb, lc⟩
    refine (run_seq _ _ _ _ _).2 ⟨a, s1 :: (b ++ s2 :: (c ++ r)), s1 :: b ++ s2 :: c,
      (run_rep _ _ _ _ _).2 ⟨la, ha, by simp⟩, ?_, by simp⟩
    refine (run_seq _ _ _ _ _).2 ⟨[s1], b ++ s2 :: (c ++ r), b ++ s2 :: c,
      (run_cls _ _ _ _).2 ⟨s1, hs1, rfl, rfl⟩, ?_, by simp⟩
    refine (run_seq _ _ _ _ _).2 ⟨b, s2 :: (c ++ r), s2 :: c,
      (run_rep _ _ _ _ _).2 ⟨lb, hb, rfl⟩, ?_, rfl⟩
    exact (run_seq _ _ _ _ _).2 ⟨[s2], c ++ r, c,
      (run_cls _ _ _ _).2 ⟨s2, hs2, rfl, rfl⟩, (run_rep _ _ _ _ _).2 ⟨lc, hc, rfl⟩, rfl⟩

theorem run_datePat (s m r : Str) :
    (m, r) ∈ dateRegex.run s ↔ IsDateShape m ∧ s = m ++ r := by
  unfold dateRegex
  rw [run_alt, run_date_branch 1 1 3, run_date_branch 3 1 1]
  constructor
  · rintro (⟨a, s1, b, s2, c, hm, hs, hs1, hs2, ha, hb, hc, la, lb, lc⟩ |
      ⟨a, s1, b, s2, c, hm, hs, hs1, hs2, ha, hb, hc, la, lb, lc⟩)
    · exact ⟨⟨a, s1, b, s2, c, hm, hs1, hs2, ha, hb, hc, Or.inl ⟨la, lb, lc⟩⟩, hs⟩
    · exact ⟨⟨a, s1, b, s2, c, hm, hs1, hs2, ha, hb, hc, Or.inr ⟨la, lb, lc⟩⟩, hs⟩
  · rintro ⟨⟨a, s1, b, s2, c, hm, hs1, hs2, ha, hb, hc, hl⟩, hs⟩
    rcases hl with ⟨la, lb, lc⟩ | ⟨la, lb, lc⟩
    · exact Or.inl ⟨a, s1, b, s2, c, hm, hs, hs1, hs2, ha, hb, hc, la, lb, lc⟩
    · exact Or.inr ⟨a, s1, b, s2, c, hm, hs, hs1, hs2, ha, hb, hc, la, lb, lc⟩

theorem date_matchAt_some (s m : Str) (h : matchAt dateRegex s = some m) :
    IsDateShape m ∧ ∃ r, s = m ++ r := by
  obtain ⟨r, hr⟩ := matchAt_some _ _ _ h
  obtain ⟨h1, h2⟩ := (run_datePat _ _ _).1 hr
  exact ⟨h1, r, h2⟩

theorem date_matchAt_ne_none (d post : Str) (h : IsDateShape d) :
    matchAt dateRegex (d ++ post) ≠ none :=
  matchAt_ne_none _ _ (d, post) ((run_datePat _ _ _).2 ⟨h, rfl⟩)

theorem IsDateShape.length {d : Str} (h : IsDateShape d) : d.length = 10 := by
  obtain ⟨a, s1, b, s2, c, rfl, _, _, _, _, _, hl⟩ := h
  simp only [List.length_append, List.length_cons]
  omega

theorem extractDate_of_search (now : UtcTime) (text m : Str)
    (h : searchFrom (matchAt dateRegex) text = some m) : extractDate now text = m := by
  unfold extractDate
  rw [h]

/-- C5. When the text holds a substring of one of the two date shapes,
`extractDate` returns the one that starts at the smallest index, as it stands
in the text: no calendar check is made, so `"31-02-2024"` and `"9999/99/99"`
are returned as they are. -/
theorem extractDate_first_match (now : UtcTime) (text : Str)
    (h : ∃ pre d post, text = pre ++ d ++ post ∧ IsDateShape d) :
    (∃ pre d post, text = pre ++ d ++ post ∧ IsDateShape d ∧ extractDate now text = d ∧
      ∀ pre' d' post', text = pre' ++ d' ++ post' → IsDateShape d' →
        pre.length ≤ pre'.length ∧ (pre'.length = pre.length → d' = d)) ∧
    extractDate now "Date: 05-08-2024".toList = "05-08-2024".toList ∧
    extractDate now "Paid 31-02-2024 on 2024/03/01".toList = "31-02-2024".toList ∧
    extractDate now "due 9999/99/99".toList = "9999/99/99".toList := by
  refine ⟨?_, extractDate_of_search _ _ _ (by decide), extractDate_of_search _ _ _ (by decide),
    extractDate_of_search _ _ _ (by decide)⟩
  obtain ⟨pre0, d0, post0, hs0, hd0⟩ := h
  cases hsearch : searchFrom (matchAt dateRegex) text with
  | none =>
    have := searchFrom_none _ _ hsearch pre0 (d0 ++ post0) (by rw [hs0, List.append_assoc])
    exact absurd this (date_matchAt_ne_none d0 post0 hd0)
  | some m =>
    obtain ⟨pre, s', hs, hf, hmin⟩ := searchFrom_some _ _ _ hsearch
    obtain ⟨hm, r, hr⟩ := date_matchAt_some _ _ hf
    have hres : extractDate now text = m := extractDate_of_search now text m hsearch
    refine ⟨pre, m, r, by rw [hs, hr, List.append_assoc], hm, hres, ?_⟩
    intro pre' d' post' hs' hd'
    have hle : pre.length ≤ pre'.length := by
      by_contra hlt
      have := hmin pre' (d' ++ post') (by rw [hs', List.append_assoc]) (by omega)
      exact date_matchAt_ne_none d' post' hd' this
    refine ⟨hle, ?_⟩
    intro heq
    have h1 : pre ++ (m ++ r) = pre' ++ (d' ++ post') := by
      rw [← hr, ← hs, hs', List.append_assoc]
    have h2 := List.append_inj h1 heq.symm
    have h3 := List.append_inj h2.2 (by rw [hm.length, hd'.length])
    exact h3.1.symm

/-- Witness of C5 on a receipt line with a date. -/
theorem extractDate_first_match_witness :
    ∃ pre d post, "Date: 05-08-2024".toList = pre ++ d ++ post ∧ IsDateShape d ∧
      extractDate sampleClock "Date: 05-08-2024".toList = d ∧
      ∀ pre' d' post', "Date: 05-08-2024".toList = pre' ++ d' ++ post' → IsDateShape d' →
        pre.length ≤ pre'.length ∧ (pre'.length = pre.length → d' = d) :=
  (extractDate_first_match sampleClock "Date: 05-08-2024".toList
    ⟨"Date: ".toList, "05-08-2024".toList, [], by decide,
      "05".toList, '-', "08".toList, '-', "2024".toList, by decide, by decide, by decide,
      by decide, by decide, by decide, by decide⟩).1

theorem toNat_ofNat_small (n : Nat) (h : n < 55296) : (Char.ofNat n).toNat = n := by
  have hv : n.isValidChar := Or.inl h
  unfold Char.ofNat
  rw [dif_pos hv]
  simp only [Char.toNat, Char.ofNatAux]
  show (UInt32.ofNat' n _).toNat = n
  simp [UInt32.ofNat', UInt32.toNat]

theorem toNat_digitChar (k : Nat) : (digitChar k).toNat = 48 + k % 10 := by
  unfold digitChar
  exact toNat_ofNat_small _ (by omega)

theorem isDigit_digitChar (k : Nat) : isDigit (digitChar k) = true := by
  rw [isDigit_iff, toNat_digitChar]
  omega

theorem digitVal_digitChar (k : Nat) : digitVal (digitChar k) = k % 10 := by
  unfold digitVal
  rw [toNat_digitChar]
  have : '0'.toNat = 48 := rfl
  omega

theorem padDigits_length (w n : Nat) : (padDigits w n).length = w := by
  induction w generalizing n with
  | zero => rfl
  | succ w ih => simp [padDigits, ih]

theorem padDigits_isDigit (w n : Nat) : ∀ c ∈ padDigits w n, isDigit c = true := by
  induction w generalizing n with
  | zero =>
    intro c hc
    exact absurd hc (List.not_mem_nil _)
  | succ w ih =>
    intro c hc
    simp only [padDigits, List.mem_append, List.mem_singleton] at hc
    rcases hc with hc | rfl
    · exact ih _ c hc
    · exact isDigit_digitChar n

theorem digitsVal_append_singleton (l : Str) (c : Char) :
    digitsVal (l ++ [c]) = 10 * digitsVal l + digitVal c := by
  simp [digitsVal, List.foldl_append]

theorem digitsVal_padDigits (w n : Nat) : digitsVal (padDigits w n) = n % 10 ^ w := by
  induction w generalizing n with
  | zero => simp [padDigits, digitsVal, Nat.mod_one]
  | succ w ih =>
    simp only [padDigits]
    rw [digitsVal_append_singleton, ih, digitVal_digitChar, pow_succ, Nat.mul_comm (10 ^ w) 10,
      Nat.mod_mul]
    omega

theorem split_append_sep (sep : Char) (a b : Str) (h : ∀ c ∈ a, c ≠ sep) :
    split sep (a ++ sep :: b) = a :: split sep b := by
  induction a with
  | nil => simp [split]
  | cons c t ih =>
    have hc : c ≠ sep := h c (List.mem_cons_self _ _)
    have ht := ih fun x hx => h x (List.mem_cons_of_mem _ hx)
    rw [List.cons_append]
    conv_lhs => unfold split
    rw [if_neg hc, ht]

theorem no_date_of_search (text : Str) (h : searchFrom (matchAt dateRegex) text = none) :
    ¬ ∃ pre d post, text = pre ++ d ++ post ∧ IsDateShape d := by
  rintro ⟨pre, d, post, hs, hd⟩
  exact date_matchAt_ne_none d post hd
    (searchFrom_none _ _ h pre (d ++ post) (by rw [hs, List.append_assoc]))

theorem search_of_no_date (text : Str)
    (h : ¬ ∃ pre d post, text = pre ++ d ++ post ∧ IsDateShape d) :
    searchFrom (matchAt dateRegex) text = none := by
  cases hsearch : searchFrom (matchAt dateRegex) text with
  | none => rfl
  | some m =>
    obtain ⟨pre, s', hs, hf, _⟩ := searchFrom_some _ _ _ hsearch
    obtain ⟨hm, r, hr⟩ := date_matchAt_some _ _ hf
    exact absurd ⟨pre, m, r, by rw [hs, hr, List.append_assoc], hm⟩ h

theorem isDigit_ne_sep {c : Char} (h : isDigit c = true) : c ≠ 'T' := by
  rintro rfl
  exact absurd h (by decide)

/-- C6. When the text holds no substring of either date shape, `extractDate`
returns the date of the clock reading in the form `YYYY-MM-DD`, for a year
from 0 to 9999: four digits that write the year, a hyphen, two digits that
write the month, a hyphen, two digits that write the day, ten characters in
all, whatever the text. -/
theorem extractDate_default (now : UtcTime) (text : Str)
    (hy : 0 ≤ now.year ∧ now.year ≤ 9999)
    (hno : ¬ ∃ pre d post, text = pre ++ d ++ post ∧ IsDateShape d) :
    ∃ y m d : Str, extractDate now text = y ++ '-' :: m ++ '-' :: d ∧
      y.length = 4 ∧ m.length = 2 ∧ d.length = 2 ∧
      (∀ c ∈ y ++ m ++ d, isDigit c = true) ∧
      (digitsVal y : Int) = now.year ∧ digitsVal m = now.month ∧ digitsVal d = now.day ∧
      (extractDate now text).length = 10 := by
  have hres : extractDate now text =
      padDigits 4 now.year.toNat ++ '-' :: padDigits 2 now.month ++ '-' :: padDigits 2 now.day := by
    unfold extractDate
    rw [search_of_no_date text hno]
    simp only
    have hiso : toISOString now =
        (padDigits 4 now.year.toNat ++ '-' :: padDigits 2 now.month ++ '-' :: padDigits 2 now.day)
          ++ 'T' :: (padDigits 2 now.hour ++ ':' :: padDigits 2 now.minute ++
            ':' :: padDigits 2 now.second ++ '.' :: padDigits 3 now.millisecond ++ ['Z']) := by
      unfold toISOString isoYear
      rw [if_pos hy]
      simp
    rw [hiso, split_append_sep]
    · rfl
    · intro c hc
      simp only [List.mem_append, List.mem_cons] at hc
      rcases hc with (hc | rfl | hc) | rfl | hc
      · exact isDigit_ne_sep (padDigits_isDigit _ _ c hc)
      · decide
      · exact isDigit_ne_sep (padDigits_isDigit _ _ c hc)
      · decide
      · exact isDigit_ne_sep (padDigits_isDigit _ _ c hc)
  refine ⟨padDigits 4 now.year.toNat, padDigits 2 now.month, padDigits 2 now.day, hres,
    padDigits_length _ _, padDigits_length _ _, padDigits_length _ _, ?_, ?_, ?_, ?_, ?_⟩
  · intro c hc
    simp only [List.mem_append] at hc
    rcases hc with (hc | hc) | hc <;> exact padDigits_isDigit _ _ c hc
  · rw [digitsVal_padDigits]
    omega
  · rw [digitsVal_padDigits]
    have := now.month_range
    omega
  · rw [digitsVal_padDigits]
    have := now.day_range
    omega
  · rw [hres]
    simp [padDigits_length]

/-- Witness of C6 on a text without a date, at the sample clock reading. -/
theorem extractDate_default_witness :
    ∃ y m d : Str, extractDate sampleClock "Thank you, visit again".toList = y ++ '-' :: m ++ '-' :: d ∧
      y.length = 4 ∧ m.length = 2 ∧ d.length = 2 ∧
      (∀ c ∈ y ++ m ++ d, isDigit c = true) ∧
      (digitsVal y : Int) = sampleClock.year ∧ digitsVal m = sampleClock.month ∧
      digitsVal d = sampleClock.day ∧
      (extractDate sampleClock "Thank you, visit again".toList).length = 10 :=
  extractDate_default sampleClock "Thank you, visit again".toList (by decide)
    (no_date_of_search _ (by decide))

/-! ## `extractCategory` and `extractPaymentMethod` -/

theorem includes_iff (t w : Str) : includes t w = true ↔ w <:+: t := by
  induction t with
  | nil => simp [includes]
  | cons c t ih =>
    simp only [includes, Bool.or_eq_true, List.isPrefixOf_iff_prefix, ih]
    exact List.infix_cons_iff.symm

theorem any_includes_iff (t : Str) (ws : List String) :
    ws.any (fun w => includes t w.toList) = true ↔ OccursAny ws t := by
  simp only [List.any_eq_true, includes_iff, OccursAny]

theorem toLowerCase_append (a b : Str) :
    toLowerCase (a ++ b) = toLowerCase a ++ toLowerCase b := by
  simp [toLowerCase, List.flatMap_append]

theorem toLowerCase_infix (w text : Str) (hw : toLowerCase w = w) (h : w <:+: text) :
    w <:+: toLowerCase text := by
  obtain ⟨pre, post, rfl⟩ := h
  rw [toLowerCase_append, toLowerCase_append, hw]
  exact ⟨toLowerCase pre, toLowerCase post, rfl⟩

theorem lookup_eq_none (l : List (Char × Str)) (c : Char) (h : ∀ p ∈ l, p.1 ≠ c) :
    l.lookup c = none := by
  induction l with
  | nil => rfl
  | cons p l ih =>
    obtain ⟨k, v⟩ := p
    have hk : k ≠ c := h (k, v) (List.mem_cons_self _ _)
    have hb : (c == k) = false := by
      rw [beq_eq_false_iff_ne]
      exact fun e => hk e.symm
    simp only [List.lookup, hb]
    exact ih fun q hq => h q (List.mem_cons_of_mem _ hq)

theorem lowerCaseTable_keys :
    ∀ p ∈ lowerCaseTable,
      (65 ≤ p.1.toNat ∧ p.1.toNat ≤ 90) ∨ p.1.toNat = 0x212A ∨ p.1.toNat = 0x130 := by
  decide

theorem lowerChar_eq_ref (c : Char) : lowerChar c = (lowerCaseTable.lookup c).getD [c] := by
  by_cases h1 : 65 ≤ c.toNat ∧ c.toNat ≤ 90
  · obtain ⟨n, hn⟩ : ∃ n, c.toNat = n := ⟨_, rfl⟩
    have hc : c = Char.ofNat n := by rw [← hn, Char.ofNat_toNat]
    rw [hn] at h1
    obtain ⟨ha, hb⟩ := h1
    rw [hc]
    clear hn hc
    interval_cases n <;> decide
  · by_cases h2 : c.toNat = 0x212A
    · have hc : c = Char.ofNat 0x212A := by rw [← h2, Char.ofNat_toNat]
      rw [hc]
      decide
    · by_cases h3 : c.toNat = 0x130
      · have hc : c = Char.ofNat 0x130 := by rw [← h3, Char.ofNat_toNat]
        rw [hc]
        decide
      · have hl : lowerChar c = [c] := by
          unfold lowerChar
          rw [if_neg h1, if_neg h2, if_neg h3]
        have hnone : lowerCaseTable.lookup c = none := by
          apply lookup_eq_none
          intro p hp hpc
          have := lowerCaseTable_keys p hp
          rw [hpc] at this
          rcases this with h | h | h
          · exact h1 h
          · exact h2 h
          · exact h3 h
        rw [hl, hnone]
        rfl

theorem toLowerCase_eq_ref (s : Str) : toLowerCase s = lowerCaseRef s := by
  unfold toLowerCase lowerCaseRef
  congr 1
  funext c
  exact lowerChar_eq_ref c

theorem extractCategory_eq_on (text : Str) :
    extractCategory text = categoryOn (toLowerCase text) := by
  unfold extractCategory categoryOn
  have k1 : keywordsOf "Food" = ["zomato", "swiggy", "restaurant", "food", "cafe", "dining", "bake", "lunch", "dinner"] := by decide
  have k2 : keywordsOf "Travel" = ["uber", "ola", "fuel", "petrol", "diesel", "transport", "taxi", "metro"] := by decide
  have k3 : keywordsOf "Shopping" = ["amazon", "flipkart", "mart", "store", "retail", "fashions", "mall"] := by decide
  have k4 : keywordsOf "Health" = ["pharmacy", "hospital", "doctor", "clinic", "medical", "medicine"] := by decide
  have k5 : keywordsOf "Bills" = ["electricity", "water", "recharge", "mobile", "internet", "subscription"] := by decide
  simp only [mapping, categoryLoop, any_includes_iff, List.find?, k1, k2, k3, k4, k5]
  split_ifs <;> simp [*]

theorem extractCategory_eq_spec (text : Str) : extractCategory text = categorySpec text := by
  unfold categorySpec
  rw [extractCategory_eq_on, toLowerCase_eq_ref]

theorem extractCategory_closed (text : Str) :
    extractCategory text ∈ ["Food", "Travel", "Shopping", "Health", "Bills", "Other"] := by
  unfold extractCategory
  simp only [mapping, categoryLoop]
  split_ifs <;> decide

/-- C7. The function `extractCategory` is the reference definition
`categorySpec`: lower-case the text (by the table `lowerCaseTable`, which is
written without the code's `toLowerCase`), then walk Food, Travel, Shopping,
Health, Bills and return the first one of whose keywords occurs as a
substring, and Other when none does.  A text that holds both `zomato` and
`uber`, in either case of the letters, is Food; `hospital` and
`Apollo HOSPITAL` are Health; a text without a keyword is Other; and the
result is always one of the six tags. -/
theorem extractCategory_refines (text : Str) :
    extractCategory text = categorySpec text ∧
    ("zomato".toList <:+: text → "uber".toList <:+: text → extractCategory text = "Food") ∧
    ("zomato".toList <:+: lowerCaseRef text → "uber".toList <:+: lowerCaseRef text →
      extractCategory text = "Food") ∧
    extractCategory "hospital".toList = "Health" ∧
    extractCategory "Apollo HOSPITAL".toList = "Health" ∧
    extractCategory "Dinner at ZOMATO, cab by Uber".toList = "Food" ∧
    extractCategory "UBER then Zomato".toList = "Food" ∧
    extractCategory "Thank You".toList = "Other" ∧
    lowerCaseRef "Dinner at ZOMATO".toList = "dinner at zomato".toList ∧
    extractCategory text ∈ ["Food", "Travel", "Shopping", "Health", "Bills", "Other"] := by
  have key : "zomato".toList <:+: lowerCaseRef text → extractCategory text = "Food" := by
    intro hz
    have hocc : OccursAny ["zomato", "swiggy", "restaurant", "food", "cafe", "dining", "bake",
        "lunch", "dinner"] (toLowerCase text) :=
      ⟨"zomato", by decide, by rw [toLowerCase_eq_ref]; exact hz⟩
    unfold extractCategory
    simp only [mapping, categoryLoop, any_includes_iff, hocc, if_true]
  refine ⟨extractCategory_eq_spec text, ?_, fun hz _ => key hz, by decide, by decide, by decide,
    by decide, by decide, by decide, extractCategory_closed text⟩
  intro hz _
  apply key
  rw [← toLowerCase_eq_ref]
  exact toLowerCase_infix _ text (by decide) hz

/-- Witness of C7 on a text that holds a Food keyword and a Travel keyword, in
capital letters. -/
theorem extractCategory_refines_witness :
    "zomato".toList <:+: lowerCaseRef "UBER to ZOMATO".toList ∧
      "uber".toList <:+: lowerCaseRef "UBER to ZOMATO".toList ∧
      extractCategory "UBER to ZOMATO".toList = "Food" :=
  ⟨by decide, by decide,
    (extractCategory_refines "UBER to ZOMATO".toList).2.2.1 (by decide) (by decide)⟩

theorem extractPaymentMethod_eq_on (text : Str) :
    extractPaymentMethod text = paymentOn (toLowerCase text) := by
  unfold extractPaymentMethod paymentOn
  have e1 : (includes (toLowerCase text) "upi".toList || includes (toLowerCase text) "scan".toList ||
      includes (toLowerCase text) "phonepe".toList || includes (toLowerCase text) "paytm".toList ||
      includes (toLowerCase text) "gpay".toList) = true ↔
      OccursAny ["upi", "scan", "phonepe", "paytm", "gpay"] (toLowerCase text) := by
    simp only [Bool.or_eq_true, includes_iff, OccursAny, List.mem_cons, List.mem_singleton,
      List.not_mem_nil, or_false, exists_eq_or_imp, exists_eq_left, or_assoc]
  have e2 : (includes (toLowerCase text) "card".toList || includes (toLowerCase text) "visa".toList ||
      includes (toLowerCase text) "mastercard".toList ||
      includes (toLowerCase text) "credit".toList ||
      includes (toLowerCase text) "debit".toList) = true ↔
      OccursAny ["card", "visa", "mastercard", "credit", "debit"] (toLowerCase text) := by
    simp only [Bool.or_eq_true, includes_iff, OccursAny, List.mem_cons, List.mem_singleton,
      List.not_mem_nil, or_false, exists_eq_or_imp, exists_eq_left, or_assoc]
  have e3 : (includes (toLowerCase text) "netbanking".toList ||
      includes (toLowerCase text) "neft".toList ||
      includes (toLowerCase text) "imbps".toList) = true ↔
      OccursAny ["netbanking", "neft", "imbps"] (toLowerCase text) := by
    simp only [Bool.or_eq_true, includes_iff, OccursAny, List.mem_cons, List.mem_singleton,
      List.not_mem_nil, or_false, exists_eq_or_imp, exists_eq_left, or_assoc]
  simp only [e1, e2, e3]

theorem extractPaymentMethod_eq_spec (text : Str) :
    extractPaymentMethod text = paymentSpec text := by
  unfold paymentSpec
  rw [extractPaymentMethod_eq_on, toLowerCase_eq_ref]

theorem extractPaymentMethod_closed (text : Str) :
    extractPaymentMethod text ∈ ["UPI", "Card", "NetBanking", "Cash"] := by
  unfold extractPaymentMethod
  dsimp only
  split_ifs <;> decide

/-- C8. The function `extractPaymentMethod` is the reference definition
`paymentSpec`: lower-case the text (by the table `lowerCaseTable`, which is
written without the code's `toLowerCase`), then follow the priority chain:
UPI for one of upi, scan, phonepe, paytm, gpay; else Card for one of card,
visa, mastercard, credit, debit; else NetBanking for one of netbanking, neft,
imbps; else Cash.  So `paid via phonepe and card` is UPI in either case of
the letters, and `imps` alone is Cash in either case, the list holding
`imbps`. -/
theorem extractPaymentMethod_refines (text : Str) :
    extractPaymentMethod text = paymentSpec text ∧
    extractPaymentMethod "paid via phonepe and card".toList = "UPI" ∧
    extractPaymentMethod "Paid via PhonePe and CARD".toList = "UPI" ∧
    extractPaymentMethod "sent by imps".toList = "Cash" ∧
    extractPaymentMethod "Sent by IMPS".toList = "Cash" ∧
    extractPaymentMethod "sent by imbps".toList = "NetBanking" ∧
    extractPaymentMethod "NEFT transfer".toList = "NetBanking" ∧
    extractPaymentMethod "VISA ending 1234".toList = "Card" ∧
    lowerCaseRef "Paid via PhonePe".toList = "paid via phonepe".toList ∧
    extractPaymentMethod text ∈ ["UPI", "Card", "NetBanking", "Cash"] :=
  ⟨extractPaymentMethod_eq_spec text, by decide, by decide, by decide, by decide, by decide,
    by decide, by decide, by decide, extractPaymentMethod_closed text⟩

/-! ## The binarization pass -/

theorem color_average (r g b : Nat) :
    color (avg (some r) (some g) (some b)) = if 385 ≤ r + g + b then 255 else 0 := by
  simp only [color, avg]
  have h : (((r + g + b : Nat) : ℚ) / 3 > 128) ↔ 385 ≤ r + g + b := by
    rw [gt_iff_lt, lt_div_iff₀ (by norm_num : (0 : ℚ) < 3)]
    constructor
    · intro h
      have h' : ((128 * 3 : Nat) : ℚ) < ((r + g + b : Nat) : ℚ) := by
        push_cast
        push_cast at h
        linarith
      have := Nat.cast_lt.1 h'
      omega
    · intro h
      have h' : ((128 * 3 : Nat) : ℚ) < ((r + g + b : Nat) : ℚ) := Nat.cast_lt.2 (by omega)
      push_cast at h'
      push_cast
      linarith
  by_cases hc : 385 ≤ r + g + b
  · rw [if_pos (h.2 hc), if_pos hc]
  · rw [if_neg (fun hh => hc (h.1 hh)), if_neg hc]

theorem getElem?_append_add (pre rest : List Nat) (j : Nat) :
    (pre ++ rest)[pre.length + j]? = rest[j]? := by
  rw [List.getElem?_append_right (Nat.le_add_right _ _), Nat.add_sub_cancel_left]

theorem set_append_add (pre rest : List Nat) (j v : Nat) :
    (pre ++ rest).set (pre.length + j) v = pre ++ rest.set j v := by
  induction pre with
  | nil => simp
  | cons a t ih =>
    simp only [List.cons_append, List.length_cons]
    rw [show t.length + 1 + j = (t.length + j) + 1 by omega, List.set_cons_succ, ih]

theorem binarizeLoop_done (fuel i : Nat) (data : List Nat) (h : data.length ≤ i) :
    binarizeLoop fuel i data = data := by
  cases fuel with
  | zero => rfl
  | succ fuel =>
    unfold binarizeLoop
    rw [if_neg (by omega)]

theorem binarizeLoop_step (fuel : Nat) (pre rest : List Nat) (h : rest ≠ []) :
    binarizeLoop (fuel + 1) pre.length (pre ++ rest) =
      binarizeLoop fuel (pre.length + 4)
        (pre ++ ((rest.set 0 (color (avg rest[0]? rest[1]? rest[2]?))).set 1
          (color (avg rest[0]? rest[1]? rest[2]?))).set 2
          (color (avg rest[0]? rest[1]? rest[2]?))) := by
  have hlt : pre.length < (pre ++ rest).length := by
    have := List.length_pos.2 h
    simp only [List.length_append]
    omega
  have g0 := getElem?_append_add pre rest 0
  have g1 := getElem?_append_add pre rest 1
  have g2 := getElem?_append_add pre rest 2
  rw [Nat.add_zero] at g0
  conv_lhs => unfold binarizeLoop
  rw [if_pos hlt]
  simp only [g0, g1, g2]
  have s0 := set_append_add pre rest 0
  rw [Nat.add_zero] at s0
  rw [s0, set_append_add, set_append_add]

theorem binarizeLoop_eq (fuel : Nat) (pre rest : List Nat) (h : rest.length ≤ 4 * fuel) :
    binarizeLoop fuel pre.length (pre ++ rest) = pre ++ binarizePixels rest := by
  induction fuel generalizing pre rest with
  | zero =>
    have : rest = [] := List.length_eq_zero.1 (by omega)
    subst this
    rfl
  | succ fuel ih =>
    match rest, h with
    | [], _ => exact binarizeLoop_done _ _ _ (by simp)
    | [r], _ =>
      rw [binarizeLoop_step fuel pre [r] (by simp)]
      exact binarizeLoop_done _ _ _ (by simp)
    | [r, g], _ =>
      rw [binarizeLoop_step fuel pre [r, g] (by simp)]
      exact binarizeLoop_done _ _ _ (by simp)
    | [r, g, b], _ =>
      rw [binarizeLoop_step fuel pre [r, g, b] (by simp)]
      exact binarizeLoop_done _ _ _ (by simp)
    | r :: g :: b :: a :: rest', h =>
      rw [binarizeLoop_step fuel pre (r :: g :: b :: a :: rest') (by simp)]
      have hlen : rest'.length ≤ 4 * fuel := by
        simp only [List.length_cons] at h
        omega
      have := ih (pre ++ [color (avg (some r) (some g) (some b)),
        color (avg (some r) (some g) (some b)),
        color (avg (some r) (some g) (some b)), a]) rest' hlen
      simp only [List.length_append, List.length_cons, List.length_nil, List.append_assoc,
        List.cons_append, List.nil_append] at this
      simpa [binarizePixels] using this

theorem binarize_eq_pixels (data : List Nat) : binarize data = binarizePixels data := by
  have := binarizeLoop_eq data.length [] data (by omega)
  simpa [binarize] using this

theorem color_idem (r g b : Nat) :
    color (avg (some (color (avg (some r) (some g) (some b))))
      (some (color (avg (some r) (some g) (some b))))
      (some (color (avg (some r) (some g) (some b))))) =
    color (avg (some r) (some g) (some b)) := by
  rw [color_average r g b, color_average]
  by_cases h : 385 ≤ r + g + b
  · simp [h]
  · simp [h]

theorem binarizePixels_idem (data : List Nat) :
    binarizePixels (binarizePixels data) = binarizePixels data := by
  induction data using binarizePixels.induct with
  | case1 r g b a rest ih =>
    simp only [binarizePixels, color_idem, ih]
  | case2 r g b => simp only [binarizePixels, color_idem]
  | case3 r g => rfl
  | case4 r => rfl
  | case5 => rfl

theorem binarizePixels_length (data : List Nat) :
    (binarizePixels data).length = data.length := by
  induction data using binarizePixels.induct with
  | case1 r g b a rest ih => simp only [binarizePixels, List.length_cons, ih]
  | case2 r g b => rfl
  | case3 r g => rfl
  | case4 r => rfl
  | case5 => rfl

theorem color_le (q : Option ℚ) : color q ≤ 255 := by
  unfold color
  split
  · split <;> omega
  · omega

theorem binarizePixels_le (data : List Nat) (h : ∀ x ∈ data, x ≤ 255) :
    ∀ x ∈ binarizePixels data, x ≤ 255 := by
  induction data using binarizePixels.induct with
  | case1 r g b a rest ih =>
    intro x hx
    simp only [binarizePixels, List.mem_cons] at hx
    rcases hx with rfl | rfl | rfl | rfl | hx
    · exact color_le _
    · exact color_le _
    · exact color_le _
    · exact h _ (by simp)
    · exact ih (fun y hy => h y (by simp [hy])) x hx
  | case2 r g b =>
    intro x hx
    simp only [binarizePixels, List.mem_cons, List.mem_singleton, List.not_mem_nil, or_false] at hx
    rcases hx with rfl | rfl | rfl <;> exact color_le _
  | case3 r g =>
    intro x hx
    simp only [binarizePixels, List.mem_cons, List.mem_singleton, List.not_mem_nil, or_false] at hx
    rcases hx with rfl | rfl <;> omega
  | case4 r =>
    intro x hx
    simp only [binarizePixels, List.mem_singleton] at hx
    omega
  | case5 =>
    intro x hx
    exact absurd hx (List.not_mem_nil _)

theorem binarizePixels_get (k : Nat) (data : List Nat) (r g b a : Nat)
    (hr : data[4 * k]? = some r) (hg : data[4 * k + 1]? = some g)
    (hb : data[4 * k + 2]? = some b) (ha : data[4 * k + 3]? = some a) :
    (binarizePixels data)[4 * k]? = some (if 385 ≤ r + g + b then 255 else 0) ∧
    (binarizePixels data)[4 * k + 1]? = some (if 385 ≤ r + g + b then 255 else 0) ∧
    (binarizePixels data)[4 * k + 2]? = some (if 385 ≤ r + g + b then 255 else 0) ∧
    (binarizePixels data)[4 * k + 3]? = some a := by
  induction k generalizing data with
  | zero =>
    match data, hr, hg, hb, ha with
    | r' :: g' :: b' :: a' :: rest, hr, hg, hb, ha =>
      simp only [Nat.mul_zero, Nat.zero_add, List.getElem?_cons_zero, List.getElem?_cons_succ,
        Option.some.injEq] at hr hg hb ha
      subst hr hg hb ha
      simp [binarizePixels, color_average]
  | succ k ih =>
    match data, hr, hg, hb, ha with
    | r' :: g' :: b' :: a' :: rest, hr, hg, hb, ha =>
      have e0 : 4 * (k + 1) = (4 * k) + 1 + 1 + 1 + 1 := by omega
      have e1 : 4 * (k + 1) + 1 = (4 * k + 1) + 1 + 1 + 1 + 1 := by omega
      have e2 : 4 * (k + 1) + 2 = (4 * k + 2) + 1 + 1 + 1 + 1 := by omega
      have e3 : 4 * (k + 1) + 3 = (4 * k + 3) + 1 + 1 + 1 + 1 := by omega
      rw [e0] at hr
      rw [e1] at hg
      rw [e2] at hb
      rw [e3] at ha
      simp only [List.getElem?_cons_succ] at hr hg hb ha
      obtain ⟨h0, h1, h2, h3⟩ := ih rest hr hg hb ha
      refine ⟨?_, ?_, ?_, ?_⟩
      · rw [e0]
        simp only [binarizePixels, List.getElem?_cons_succ]
        exact h0
      · rw [e1]
        simp only [binarizePixels, List.getElem?_cons_succ]
        exact h1
      · rw [e2]
        simp only [binarizePixels, List.getElem?_cons_succ]
        exact h2
      · rw [e3]
        simp only [binarizePixels, List.getElem?_cons_succ]
        exact h3

/-- C9. On a buffer of `4 * n` bytes, each at most 255, the binarization pass
keeps the length and the range of the bytes, and for every pixel `k < n` with
the channels `r`, `g`, `b`, `a` it writes the same byte in the three colour
channels, 255 when the mean `(r + g + b) / 3` is above 128, which is when
`r + g + b ≥ 385`, and 0 otherwise (so at a mean of 128), and leaves the
alpha byte `a` as it is. -/
theorem binarize_pixels (data : List Nat) (n : Nat) (hlen : data.length = 4 * n)
    (hbyte : ∀ x ∈ data, x ≤ 255) :
    (binarize data).length = data.length ∧ (∀ x ∈ binarize data, x ≤ 255) ∧
    ∀ k < n, ∃ r g b a : Nat,
      data[4 * k]? = some r ∧ data[4 * k + 1]? = some g ∧ data[4 * k + 2]? = some b ∧
      data[4 * k + 3]? = some a ∧
      ((((r + g + b : Nat) : ℚ) / 3 > 128) ↔ 385 ≤ r + g + b) ∧
      (binarize data)[4 * k]? = some (if ((r + g + b : Nat) : ℚ) / 3 > 128 then 255 else 0) ∧
      (binarize data)[4 * k + 1]? = (binarize data)[4 * k]? ∧
      (binarize data)[4 * k + 2]? = (binarize data)[4 * k]? ∧
      (binarize data)[4 * k + 3]? = some a := by
  rw [binarize_eq_pixels]
  refine ⟨binarizePixels_length data, binarizePixels_le data hbyte, ?_⟩
  intro k hk
  have h0 : 4 * k < data.length := by omega
  have h1 : 4 * k + 1 < data.length := by omega
  have h2 : 4 * k + 2 < data.length := by omega
  have h3 : 4 * k + 3 < data.length := by omega
  obtain ⟨p0, p1, p2, p3⟩ := binarizePixels_get k data data[4 * k] data[4 * k + 1]
    data[4 * k + 2] data[4 * k + 3] (List.getElem?_eq_getElem h0) (List.getElem?_eq_getElem h1)
    (List.getElem?_eq_getElem h2) (List.getElem?_eq_getElem h3)
  have hiff : ((((data[4 * k] + data[4 * k + 1] + data[4 * k + 2] : Nat) : ℚ) / 3 > 128) ↔
      385 ≤ data[4 * k] + data[4 * k + 1] + data[4 * k + 2]) := by
    have := color_average data[4 * k] data[4 * k + 1] data[4 * k + 2]
    simp only [color, avg] at this
    by_cases hc : 385 ≤ data[4 * k] + data[4 * k + 1] + data[4 * k + 2]
    · rw [if_pos hc] at this
      refine ⟨fun _ => hc, fun _ => ?_⟩
      by_contra hq
      rw [if_neg hq] at this
      omega
    · rw [if_neg hc] at this
      refine ⟨fun hq => ?_, fun h => absurd h hc⟩
      rw [if_pos hq] at this
      omega
  refine ⟨data[4 * k], data[4 * k + 1], data[4 * k + 2], data[4 * k + 3],
    List.getElem?_eq_getElem h0, List.getElem?_eq_getElem h1, List.getElem?_eq_getElem h2,
    List.getElem?_eq_getElem h3, hiff, ?_, ?_, ?_, p3⟩
  · rw [p0]
    congr 1
    by_cases hc : 385 ≤ data[4 * k] + data[4 * k + 1] + data[4 * k + 2]
    · rw [if_pos hc, if_pos (hiff.2 hc)]
    · rw [if_neg hc, if_neg (fun hq => hc (hiff.1 hq))]
  · rw [p1, p0]
  · rw [p2, p0]

/-- Witness of C9 on a buffer of two pixels, the first of mean above 128, the
second of mean 128. -/
theorem binarize_pixels_witness :
    (binarize [200, 100, 85, 7, 128, 128, 128, 0]).length = 8 ∧
    (∀ x ∈ binarize [200, 100, 85, 7, 128, 128, 128, 0], x ≤ 255) ∧
    ∀ k < 2, ∃ r g b a : Nat,
      [200, 100, 85, 7, 128, 128, 128, 0][4 * k]? = some r ∧
      [200, 100, 85, 7, 128, 128, 128, 0][4 * k + 1]? = some g ∧
      [200, 100, 85, 7, 128, 128, 128, 0][4 * k + 2]? = some b ∧
      [200, 100, 85, 7, 128, 128, 128, 0][4 * k + 3]? = some a ∧
      ((((r + g + b : Nat) : ℚ) / 3 > 128) ↔ 385 ≤ r + g + b) ∧
      (binarize [200, 100, 85, 7, 128, 128, 128, 0])[4 * k]? =
        some (if ((r + g + b : Nat) : ℚ) / 3 > 128 then 255 else 0) ∧
      (binarize [200, 100, 85, 7, 128, 128, 128, 0])[4 * k + 1]? =
        (binarize [200, 100, 85, 7, 128, 128, 128, 0])[4 * k]? ∧
      (binarize [200, 100, 85, 7, 128, 128, 128, 0])[4 * k + 2]? =
        (binarize [200, 100, 85, 7, 128, 128, 128, 0])[4 * k]? ∧
      (binarize [200, 100, 85, 7, 128, 128, 128, 0])[4 * k + 3]? = some a :=
  binarize_pixels [200, 100, 85, 7, 128, 128, 128, 0] 2 (by decide) (by decide)

/-- C10. The binarization pass is idempotent: on every buffer, a second pass
returns the result of the first. -/
theorem binarize_idempotent (data : List Nat) : binarize (binarize data) = binarize data := by
  rw [binarize_eq_pixels, binarize_eq_pixels]
  exact binarizePixels_idem data

/-! ## `analyzeImage` -/

theorem analyzeImage_of_rejected (w : World) (imageFile : Str) (e : String)
    (h : analyzeBody w imageFile = .rejected e) :
    analyzeImage w imageFile = .fulfilled ⟨[], [], [], "Other", "Cash", none⟩ := by
  unfold analyzeImage
  rw [h]

theorem analyzeBody_of_text (w : World) (imageFile p t : Str)
    (hp : preprocessImage w imageFile = .fulfilled p)
    (hr : w.recognize p = .fulfilled (.str t)) :
    analyzeBody w imageFile = .fulfilled
      { text := t
        amount := extractAmount t
        date := extractDate w.now t
        category := extractCategory t
        payment_method := extractPaymentMethod t
        confidence_score := some 100 } := by
  unfold analyzeBody
  rw [hp]
  simp only
  rw [hr]

theorem analyzeImage_of_text (w : World) (imageFile p t : Str)
    (hp : preprocessImage w imageFile = .fulfilled p)
    (hr : w.recognize p = .fulfilled (.str t)) :
    analyzeImage w imageFile = .fulfilled
      { text := t
        amount := extractAmount t
        date := extractDate w.now t
        category := extractCategory t
        payment_method := extractPaymentMethod t
        confidence_score := some 100 } := by
  unfold analyzeImage
  rw [analyzeBody_of_text w imageFile p t hp hr]

theorem analyzeBody_of_failure (w : World) (imageFile : Str) (e : String)
    (h : preprocessImage w imageFile = .rejected e ∨
      ∃ p, preprocessImage w imageFile = .fulfilled p ∧ w.recognize p = .rejected e) :
    analyzeBody w imageFile = .rejected e := by
  unfold analyzeBody
  rcases h with h | ⟨p, hp, hr⟩
  · rw [h]
  · rw [hp]
    simp only
    rw [hr]

theorem analyzeBody_of_other (w : World) (imageFile p : Str)
    (hp : preprocessImage w imageFile = .fulfilled p)
    (hr : w.recognize p = .fulfilled .other) :
    analyzeBody w imageFile = .rejected "TypeError" := by
  unfold analyzeBody
  rw [hp]
  simp only
  rw [hr]

theorem analyzeBody_of_pending (w : World) (imageFile : Str)
    (h : preprocessImage w imageFile = .pending ∨
      ∃ p, preprocessImage w imageFile = .fulfilled p ∧ w.recognize p = .pending) :
    analyzeImage w imageFile = .pending := by
  unfold analyzeImage analyzeBody
  rcases h with h | ⟨p, hp, hr⟩
  · rw [h]
  · rw [hp]
    simp only
    rw [hr]

/-- C11. The code on the failure paths.  When the recognition is rejected, or
the promise of `preprocessImage` is, `analyzeImage` returns the record with
the text, the amount and the date empty, the category `Other`, the payment
method `Cash` and no `confidence_score`, whatever the image and the error.
When the promise of `preprocessImage` stays pending, as it does for an image
source that does not load, `analyzeImage` returns nothing: its promise stays
pending too. -/
theorem analyzeImage_failure (w : World) (imageFile : Str) :
    (match preprocessImage w imageFile with
      | .pending => analyzeImage w imageFile = .pending
      | .rejected _ =>
        analyzeImage w imageFile = .fulfilled ⟨[], [], [], "Other", "Cash", none⟩
      | .fulfilled p =>
        match w.recognize p with
        | .pending => analyzeImage w imageFile = .pending
        | .rejected _ =>
          analyzeImage w imageFile = .fulfilled ⟨[], [], [], "Other", "Cash", none⟩
        | .fulfilled _ => True) ∧
    preprocessImage unloadableWorld "corrupt.png".toList = .pending ∧
    analyzeImage unloadableWorld "corrupt.png".toList = .pending ∧
    analyzeImage rejectingWorld "receipt.png".toList =
      .fulfilled ⟨[], [], [], "Other", "Cash", none⟩ := by
  refine ⟨?_, rfl, rfl, ?_⟩
  · cases hp : preprocessImage w imageFile with
    | pending => exact analyzeBody_of_pending w imageFile (Or.inl hp)
    | rejected e =>
      exact analyzeImage_of_rejected w imageFile e
        (analyzeBody_of_failure w imageFile e (Or.inl hp))
    | fulfilled p =>
      simp only
      cases hr : w.recognize p with
      | pending => exact analyzeBody_of_pending w imageFile (Or.inr ⟨p, hp, hr⟩)
      | rejected e =>
        exact analyzeImage_of_rejected w imageFile e
          (analyzeBody_of_failure w imageFile e (Or.inr ⟨p, hp, hr⟩))
      | fulfilled v => trivial
  · exact analyzeImage_of_rejected rejectingWorld "receipt.png".toList "recognition failed"
      (analyzeBody_of_failure _ _ _ (Or.inr ⟨_, rfl, rfl⟩))

/-- C12. When the engine resolves with the text `t`, `analyzeImage` returns
the record with that text unchanged, the four fields that the extractors
compute from that same `t`, and the `confidence_score` 100. -/
theorem analyzeImage_success (w : World) (imageFile p t : Str)
    (hp : preprocessImage w imageFile = .fulfilled p)
    (hr : w.recognize p = .fulfilled (.str t)) :
    analyzeImage w imageFile = .fulfilled
      { text := t
        amount := extractAmount t
        date := extractDate w.now t
        category := extractCategory t
        payment_method := extractPaymentMethod t
        confidence_score := some 100 } :=
  analyzeImage_of_text w imageFile p t hp hr

/-- Witness of C12 in the sample world. -/
theorem analyzeImage_success_witness :
    analyzeImage sampleWorld "receipt.png".toList = .fulfilled
      { text := "Total: 450.00".toList
        amount := extractAmount "Total: 450.00".toList
        date := extractDate sampleWorld.now "Total: 450.00".toList
        category := extractCategory "Total: 450.00".toList
        payment_method := extractPaymentMethod "Total: 450.00".toList
        confidence_score := some 100 } :=
  analyzeImage_success sampleWorld "receipt.png".toList _ _ rfl rfl

/-- C13. The promise of `analyzeImage` is never rejected.  When the
normalization and the recognition each end, with a value or with an error,
it is fulfilled with a record, the populated one of a recognized text or the
default one; a result without a text, on which the first extractor throws,
gives the default one. -/
theorem analyzeImage_no_exception (w : World) (imageFile : Str) :
    (∀ e, analyzeImage w imageFile ≠ .rejected e) ∧
    (preprocessImage w imageFile ≠ .pending →
      (∀ p, preprocessImage w imageFile = .fulfilled p → w.recognize p ≠ .pending) →
      ∃ r, analyzeImage w imageFile = .fulfilled r ∧
        (r = ⟨[], [], [], "Other", "Cash", none⟩ ∨
          ∃ t, r = ⟨t, extractAmount t, extractDate w.now t, extractCategory t,
            extractPaymentMethod t, some 100⟩)) ∧
    (∀ p, preprocessImage w imageFile = .fulfilled p → w.recognize p = .fulfilled .other →
      analyzeImage w imageFile = .fulfilled ⟨[], [], [], "Other", "Cash", none⟩) := by
  refine ⟨?_, ?_, ?_⟩
  · intro e h
    unfold analyzeImage at h
    split at h <;> cases h
  · intro h1 h2
    cases hp : preprocessImage w imageFile with
    | pending => exact absurd hp h1
    | rejected e =>
      exact ⟨_, analyzeImage_of_rejected w imageFile e
        (analyzeBody_of_failure w imageFile e (Or.inl hp)), Or.inl rfl⟩
    | fulfilled p =>
      cases hr : w.recognize p with
      | pending => exact absurd hr (h2 p hp)
      | rejected e =>
        exact ⟨_, analyzeImage_of_rejected w imageFile e
          (analyzeBody_of_failure w imageFile e (Or.inr ⟨p, hp, hr⟩)), Or.inl rfl⟩
      | fulfilled v =>
        cases v with
        | other =>
          exact ⟨_, analyzeImage_of_rejected w imageFile _
            (analyzeBody_of_other w imageFile p hp hr), Or.inl rfl⟩
        | str t => exact ⟨_, analyzeImage_of_text w imageFile p t hp hr, Or.inr ⟨t, rfl⟩⟩
  · intro p hp hr
    exact analyzeImage_of_rejected w imageFile _ (analyzeBody_of_other w imageFile p hp hr)

/-- Witness of C13 in a world whose engine resolves without a text. -/
theorem analyzeImage_no_exception_witness :
    (∃ r, analyzeImage textlessWorld "receipt.png".toList = .fulfilled r ∧
      (r = ⟨[], [], [], "Other", "Cash", none⟩ ∨
        ∃ t, r = ⟨t, extractAmount t, extractDate textlessWorld.now t, extractCategory t,
          extractPaymentMethod t, some 100⟩)) ∧
    analyzeImage textlessWorld "receipt.png".toList =
      .fulfilled ⟨[], [], [], "Other", "Cash", none⟩ :=
  ⟨(analyzeImage_no_exception textlessWorld "receipt.png".toList).2.1
      (fun h => Settled.noConfusion h)
      (fun _ _ h => Settled.noConfusion h),
    (analyzeImage_no_exception textlessWorld "receipt.png".toList).2.2 _ rfl rfl⟩

theorem isoYear_ne_sep (y : Int) : ∀ c ∈ isoYear y, c ≠ 'T' := by
  intro c hc
  unfold isoYear at hc
  split at hc
  · exact isDigit_ne_sep (padDigits_isDigit _ _ c hc)
  · rcases List.mem_cons.1 hc with rfl | hc
    · split <;> decide
    · exact isDigit_ne_sep (padDigits_isDigit _ _ c hc)

theorem extractDate_no_date (now : UtcTime) (text : Str)
    (hno : ¬ ∃ pre d post, text = pre ++ d ++ post ∧ IsDateShape d) :
    extractDate now text =
      isoYear now.year ++ '-' :: padDigits 2 now.month ++ '-' :: padDigits 2 now.day := by
  unfold extractDate
  rw [search_of_no_date text hno]
  simp only
  have hiso : toISOString now =
      (isoYear now.year ++ '-' :: padDigits 2 now.month ++ '-' :: padDigits 2 now.day)
        ++ 'T' :: (padDigits 2 now.hour ++ ':' :: padDigits 2 now.minute ++
          ':' :: padDigits 2 now.second ++ '.' :: padDigits 3 now.millisecond ++ ['Z']) := by
    unfold toISOString
    simp
  rw [hiso, split_append_sep]
  · rfl
  · intro c hc
    simp only [List.mem_append, List.mem_cons] at hc
    rcases hc with (hc | rfl | hc) | rfl | hc
    · exact isoYear_ne_sep _ c hc
    · decide
    · exact isDigit_ne_sep (padDigits_isDigit _ _ c hc)
    · decide
    · exact isDigit_ne_sep (padDigits_isDigit _ _ c hc)

theorem extractDate_cases (now : UtcTime) (text : Str) :
    (∃ pre post, text = pre ++ extractDate now text ++ post ∧
        IsDateShape (extractDate now text)) ∨
      ((¬ ∃ pre d post, text = pre ++ d ++ post ∧ IsDateShape d) ∧
        extractDate now text =
          isoYear now.year ++ '-' :: padDigits 2 now.month ++ '-' :: padDigits 2 now.day) := by
  cases hsearch : searchFrom (matchAt dateRegex) text with
  | none =>
    have hno := no_date_of_search text hsearch
    exact Or.inr ⟨hno, extractDate_no_date now text hno⟩
  | some m =>
    obtain ⟨pre, s', hs, hf, _⟩ := searchFrom_some _ _ _ hsearch
    obtain ⟨hm, r, hr⟩ := date_matchAt_some _ _ hf
    rw [extractDate_of_search now text m hsearch]
    exact Or.inl ⟨pre, r, by rw [hs, hr, List.append_assoc], hm⟩

theorem extractDate_ne_nil (now : UtcTime) (text : Str) : extractDate now text ≠ [] := by
  rcases extractDate_cases now text with ⟨_, _, _, hd⟩ | ⟨_, heq⟩
  · intro h
    have := hd.length
    rw [h] at this
    cases this
  · rw [heq]
    intro h
    have := congrArg List.length h
    simp at this

/-- C14, the claim refuted: in the world whose engine rejects, `analyzeImage`
returns a record whose date is the empty string. -/
theorem analyzeImage_date_counterexample :
    ¬ ∀ r, analyzeImage rejectingWorld "receipt.png".toList = .fulfilled r → r.date ≠ [] := by
  intro h
  exact h ⟨[], [], [], "Other", "Cash", none⟩
    (analyzeImage_of_rejected rejectingWorld "receipt.png".toList "recognition failed"
      (analyzeBody_of_failure _ _ _ (Or.inr ⟨_, rfl, rfl⟩))) rfl

/-- C14, amended. In the record returned on the success path the date is not
empty: it is a substring of the recognized text of one of the two date
shapes, or, when the text holds none, the date of the clock reading, which is
of the form `YYYY-MM-DD`, ten characters, for a year from 0 to 9999; the
amount may be empty.  In the record returned on the failure path the date is
the empty string. -/
theorem analyzeImage_date (w : World) (imageFile : Str) :
    (∀ p t, preprocessImage w imageFile = .fulfilled p → w.recognize p = .fulfilled (.str t) →
      ∃ r, analyzeImage w imageFile = .fulfilled r ∧ r.date ≠ [] ∧
        ((∃ pre post, t = pre ++ r.date ++ post ∧ IsDateShape r.date) ∨
          ((¬ ∃ pre d post, t = pre ++ d ++ post ∧ IsDateShape d) ∧
            r.date = isoYear w.now.year ++ '-' :: padDigits 2 w.now.month ++
              '-' :: padDigits 2 w.now.day ∧
            (0 ≤ w.now.year ∧ w.now.year ≤ 9999 →
              isoYear w.now.year = padDigits 4 w.now.year.toNat ∧ r.date.length = 10)))) ∧
    (∀ e, (preprocessImage w imageFile = .rejected e ∨
        ∃ p, preprocessImage w imageFile = .fulfilled p ∧ w.recognize p = .rejected e) →
      ∃ r, analyzeImage w imageFile = .fulfilled r ∧ r.date = [] ∧ r.amount = []) := by
  refine ⟨?_, ?_⟩
  · intro p t hp hr
    refine ⟨_, analyzeImage_of_text w imageFile p t hp hr, extractDate_ne_nil w.now t, ?_⟩
    rcases extractDate_cases w.now t with h | ⟨hno, heq⟩
    · exact Or.inl h
    · refine Or.inr ⟨hno, heq, ?_⟩
      intro hy
      have hyear : isoYear w.now.year = padDigits 4 w.now.year.toNat := by
        unfold isoYear
        rw [if_pos hy]
      refine ⟨hyear, ?_⟩
      show (extractDate w.now t).length = 10
      rw [heq, hyear]
      simp [padDigits_length]
  · intro e h
    exact ⟨_, analyzeImage_of_rejected w imageFile e (analyzeBody_of_failure w imageFile e h),
      rfl, rfl⟩

/-- Witness of the amended C14 in the sample world, whose text holds no date. -/
theorem analyzeImage_date_witness :
    ∃ r, analyzeImage sampleWorld "receipt.png".toList = .fulfilled r ∧ r.date ≠ [] ∧
      ((∃ pre post, "Total: 450.00".toList = pre ++ r.date ++ post ∧ IsDateShape r.date) ∨
        ((¬ ∃ pre d post, "Total: 450.00".toList = pre ++ d ++ post ∧ IsDateShape d) ∧
          r.date = isoYear sampleWorld.now.year ++ '-' :: padDigits 2 sampleWorld.now.month ++
            '-' :: padDigits 2 sampleWorld.now.day ∧
          (0 ≤ sampleWorld.now.year ∧ sampleWorld.now.year ≤ 9999 →
            isoYear sampleWorld.now.year = padDigits 4 sampleWorld.now.year.toNat ∧
              r.date.length = 10))) :=
  (analyzeImage_date sampleWorld "receipt.png".toList).1 _ _ rfl rfl

/-! ## `extractAmount`: commas and token boundaries -/

theorem removeCommas_idem (s : Str) : removeCommas (removeCommas s) = removeCommas s := by
  unfold removeCommas
  rw [List.filter_filter]
  simp

theorem split_ne_nil (sep : Char) (s : Str) : split sep s ≠ [] := by
  cases s with
  | nil => simp [split]
  | cons c t =>
    unfold split
    split
    · exact List.cons_ne_nil _ _
    · split <;> exact List.cons_ne_nil _ _

theorem split_removeCommas (text : Str) :
    split '\n' (removeCommas text) = (split '\n' text).map removeCommas := by
  induction text with
  | nil => rfl
  | cons c t ih =>
    by_cases hn : c = '\n'
    · subst hn
      have h1 : removeCommas ('\n' :: t) = '\n' :: removeCommas t := by
        simp [removeCommas]
      rw [h1]
      conv_lhs => unfold split
      conv_rhs => unfold split
      simp only [if_true, List.map_cons, ih]
      rfl
    · by_cases hc : c = ','
      · subst hc
        have h1 : removeCommas (',' :: t) = removeCommas t := by
          simp [removeCommas]
        rw [h1, ih]
        conv_rhs => unfold split
        rw [if_neg hn]
        cases hs : split '\n' t with
        | nil => exact absurd hs (split_ne_nil _ _)
        | cons l ls =>
          simp only [List.map_cons]
          congr 1
      · have h1 : removeCommas (c :: t) = c :: removeCommas t := by
          simp [removeCommas, hc]
        rw [h1]
        conv_lhs => unfold split
        conv_rhs => unfold split
        rw [if_neg hn, if_neg hn, ih]
        cases hs : split '\n' t with
        | nil => exact absurd hs (split_ne_nil _ _)
        | cons l ls =>
          simp only [List.map_cons]
          congr 1
          simp [removeCommas, hc]

theorem amountCandidates_removeCommas (text : Str) :
    amountCandidates (removeCommas text) = amountCandidates text := by
  unfold amountCandidates
  rw [split_removeCommas, List.filterMap_map]
  congr 1
  funext line
  simp only [Function.comp, removeCommas_idem]

theorem extractAmount_removeCommas_keyword (text : Str) (h : amountCandidates text ≠ []) :
    extractAmount (removeCommas text) = extractAmount text := by
  have hlen : (amountCandidates text).length > 0 := List.length_pos.2 h
  unfold extractAmount
  simp only [amountCandidates_removeCommas, hlen, if_true]

set_option exponentiation.threshold 4000 in
set_option maxRecDepth 100000 in
/-- C15. The code at the failing input.  On the keyword path the commas of the
text do not change the result (`Rs. 1,234.00` gives `1234.00`); on the
fallback path they do: the bare `1,234.56` gives `234.56`, and the same text
without its comma gives `1234.56`. -/
theorem extractAmount_commas :
    (∀ text, amountCandidates text = [] ∨
      extractAmount (removeCommas text) = extractAmount text) ∧
    extractAmount "Rs. 1,234.00".toList = "1234.00".toList ∧
    amountCandidates "1,234.56".toList = [] ∧
    extractAmount "1,234.56".toList = "234.56".toList ∧
    extractAmount (removeCommas "1,234.56".toList) = "1234.56".toList := by
  refine ⟨?_, by decide, by decide, by decide, by decide⟩
  intro text
  by_cases h : amountCandidates text = []
  · exact Or.inl h
  · exact Or.inr (extractAmount_removeCommas_keyword text h)

/-- C16, the claim refuted: on `12.345`, a text without a keyword, the result
`12.34` is followed in the text by the digit `5`. -/
theorem extractAmount_fallback_token_counterexample :
    ¬ (amountCandidates "12.345".toList = [] → extractAmount "12.345".toList ≠ [] →
      ∀ pre post, "12.345".toList = pre ++ extractAmount "12.345".toList ++ post →
        ∀ c t, post = c :: t → isDigit c = false) := by
  intro h
  have h5 := h (by decide) (by decide) [] ['5'] (by decide) '5' [] rfl
  exact absurd h5 (by decide)

/-- C16, amended. On the fallback path a result that is not empty is a
substring of the text made of one or more digits, a dot and two digits, the
last match of the scan: the text holds no further token of that form after
it.  Nothing keeps a digit from following it: `12.345` gives `12.34`. -/
theorem extractAmount_fallback_token (text : Str) (hc : amountCandidates text = [])
    (hne : extractAmount text ≠ []) :
    (IsDecimal2 (extractAmount text) ∧
      ∃ pre post, text = pre ++ extractAmount text ++ post ∧
        ∀ a m b, post = a ++ m ++ b → ¬ IsDecimal2 m) ∧
    extractAmount "12.345".toList = "12.34".toList := by
  refine ⟨?_, by decide⟩
  rw [extractAmount_of_no_candidates text hc] at hne ⊢
  cases hl : (fallbackMatches text).getLast? with
  | none =>
    rw [hl] at hne
    exact absurd rfl hne
  | some m => exact fallbackMatches_last text m hl

/-- Witness of the amended C16 on `12.345`. -/
theorem extractAmount_fallback_token_witness :
    IsDecimal2 (extractAmount "12.345".toList) ∧
      ∃ pre post, "12.345".toList = pre ++ extractAmount "12.345".toList ++ post ∧
        ∀ a m b, post = a ++ m ++ b → ¬ IsDecimal2 m :=
  (extractAmount_fallback_token "12.345".toList (by decide) (by decide)).1

/-! ## Letter case and the classifiers -/

theorem lowerChar_of_not_capital (c : Char) (h1 : ¬ (65 ≤ c.toNat ∧ c.toNat ≤ 90))
    (h2 : c.toNat ≠ 0x212A) (h3 : c.toNat ≠ 0x130) : lowerChar c = [c] := by
  unfold lowerChar
  rw [if_neg h1, if_neg h2, if_neg h3]

theorem toLowerCase_singleton (c : Char) : toLowerCase [c] = lowerChar c := by
  simp [toLowerCase]

theorem toLowerCase_cons (c : Char) (s : Str) :
    toLowerCase (c :: s) = lowerChar c ++ toLowerCase s := by
  simp [toLowerCase]

theorem toLowerCase_lowerChar (c : Char) : toLowerCase (lowerChar c) = lowerChar c := by
  by_cases h1 : 65 ≤ c.toNat ∧ c.toNat ≤ 90
  · have hl : lowerChar c = [Char.ofNat (c.toNat + 32)] := by
      unfold lowerChar
      rw [if_pos h1]
    have hn : (Char.ofNat (c.toNat + 32)).toNat = c.toNat + 32 :=
      toNat_ofNat_small _ (by omega)
    rw [hl, toLowerCase_singleton]
    exact lowerChar_of_not_capital _ (by omega) (by omega) (by omega)
  · by_cases h2 : c.toNat = 0x212A
    · have hl : lowerChar c = ['k'] := by
        unfold lowerChar
        rw [if_neg h1, if_pos h2]
      rw [hl]
      decide
    · by_cases h3 : c.toNat = 0x130
      · have hl : lowerChar c = ['i', Char.ofNat 0x307] := by
          unfold lowerChar
          rw [if_neg h1, if_neg h2, if_pos h3]
        rw [hl]
        decide
      · rw [lowerChar_of_not_capital c h1 h2 h3, toLowerCase_singleton]
        exact lowerChar_of_not_capital c h1 h2 h3

theorem toLowerCase_idem (s : Str) : toLowerCase (toLowerCase s) = toLowerCase s := by
  induction s with
  | nil => rfl
  | cons c t ih =>
    rw [toLowerCase_cons, toLowerCase_append, toLowerCase_lowerChar, ih]

theorem lowerChar_upperAsciiChar (c : Char) (h : c.toNat < 128) :
    lowerChar (upperAsciiChar c) = lowerChar c := by
  unfold upperAsciiChar
  split
  · rename_i hl
    have hn : (Char.ofNat (c.toNat - 32)).toNat = c.toNat - 32 :=
      toNat_ofNat_small _ (by omega)
    rw [lowerChar_of_not_capital c (by omega) (by omega) (by omega)]
    unfold lowerChar
    rw [if_pos (by omega), hn]
    have : c.toNat - 32 + 32 = c.toNat := by omega
    rw [this, Char.ofNat_toNat]
  · rfl

theorem toLowerCase_upperAscii (s : Str) (h : IsAscii s) :
    toLowerCase (upperAscii s) = toLowerCase s := by
  induction s with
  | nil => rfl
  | cons c t ih =>
    have hc : c.toNat < 128 := h c (List.mem_cons_self _ _)
    have ht : IsAscii t := fun x hx => h x (List.mem_cons_of_mem _ hx)
    show toLowerCase (upperAsciiChar c :: upperAscii t) = toLowerCase (c :: t)
    rw [toLowerCase_cons, toLowerCase_cons, lowerChar_upperAsciiChar c hc, ih ht]

theorem extractCategory_of_lower (a b : Str) (h : toLowerCase a = toLowerCase b) :
    extractCategory a = extractCategory b := by
  unfold extractCategory
  rw [h]

theorem extractPaymentMethod_of_lower (a b : Str) (h : toLowerCase a = toLowerCase b) :
    extractPaymentMethod a = extractPaymentMethod b := by
  unfold extractPaymentMethod
  rw [h]

/-- C17. On a text of ASCII the two classifiers return the same tag for the
text, for its lower-cased form and for its upper-cased form. -/
theorem classifiers_ignore_case (text : Str) (h : IsAscii text) :
    extractCategory (toLowerCase text) = extractCategory text ∧
    extractCategory (upperAscii text) = extractCategory text ∧
    extractPaymentMethod (toLowerCase text) = extractPaymentMethod text ∧
    extractPaymentMethod (upperAscii text) = extractPaymentMethod text :=
  ⟨extractCategory_of_lower _ _ (toLowerCase_idem text),
    extractCategory_of_lower _ _ (toLowerCase_upperAscii text h),
    extractPaymentMethod_of_lower _ _ (toLowerCase_idem text),
    extractPaymentMethod_of_lower _ _ (toLowerCase_upperAscii text h)⟩

/-- Witness of C17 on a receipt line in mixed case. -/
theorem classifiers_ignore_case_witness :
    extractCategory (toLowerCase "Uber Ride, paid by Visa".toList) =
      extractCategory "Uber Ride, paid by Visa".toList ∧
    extractCategory (upperAscii "Uber Ride, paid by Visa".toList) =
      extractCategory "Uber Ride, paid by Visa".toList ∧
    extractPaymentMethod (toLowerCase "Uber Ride, paid by Visa".toList) =
      extractPaymentMethod "Uber Ride, paid by Visa".toList ∧
    extractPaymentMethod (upperAscii "Uber Ride, paid by Visa".toList) =
      extractPaymentMethod "Uber Ride, paid by Visa".toList :=
  classifiers_ignore_case "Uber Ride, paid by Visa".toList (by unfold IsAscii; decide)

set_option maxRecDepth 100000 in
/-- C18. No keyword is shadowed: each keyword of a category, taken as the
whole text, is classified in that category, and each keyword of a payment
tag in that tag; no keyword holds as a substring a keyword of a tag checked
before its own. -/
theorem keywords_not_shadowed :
    (∀ e ∈ mapping, ∀ w ∈ e.2, extractCategory w.toList = e.1) ∧
    (∀ e ∈ paymentKeywords, ∀ w ∈ e.2, extractPaymentMethod w.toList = e.1) ∧
    mapping.Pairwise (fun e1 e2 => ∀ v ∈ e1.2, ∀ w ∈ e2.2, ¬ v.toList <:+: w.toList) ∧
    paymentKeywords.Pairwise
      (fun e1 e2 => ∀ v ∈ e1.2, ∀ w ∈ e2.2, ¬ v.toList <:+: w.toList) := by
  refine ⟨by decide, by decide, by decide, by decide⟩

/-- Witness of C18 on the keyword `mastercard` of the tag Card. -/
theorem keywords_not_shadowed_witness :
    extractPaymentMethod "mastercard".toList = "Card" :=
  keywords_not_shadowed.2.1 ("Card", ["card", "visa", "mastercard", "credit", "debit"])
    (by decide) "mastercard" (by decide)

/-! ## `extractAmount`: ties -/

theorem sortWith_head_first {α : Type} (cmp : α → α → Int) (l : List α) (hne : l ≠ [])
    (htot : ∀ a ∈ l, ∀ b ∈ l, cmp a b ≤ 0 ∨ cmp b a ≤ 0)
    (htr : ∀ a ∈ l, ∀ b ∈ l, ∀ c ∈ l, cmp a b ≤ 0 → cmp b c ≤ 0 → cmp a c ≤ 0) :
    ∃ pre h post t, l = pre ++ h :: post ∧ sortWith cmp l = h :: t ∧
      (∀ x ∈ pre, ¬ cmp x h ≤ 0) ∧ ∀ x ∈ post, cmp h x ≤ 0 := by
  induction l with
  | nil => exact absurd rfl hne
  | cons a l ih =>
    by_cases hl : l = []
    · subst hl
      refine ⟨[], a, [], [], rfl, rfl, ?_, ?_⟩
      · intro x hx
        exact absurd hx (List.not_mem_nil _)
      · intro x hx
        exact absurd hx (List.not_mem_nil _)
    · obtain ⟨pre, h, post, t, hdec, hs, hpre, hpost⟩ := ih hl
        (fun x hx y hy => htot x (List.mem_cons_of_mem _ hx) y (List.mem_cons_of_mem _ hy))
        (fun x hx y hy z hz => htr x (List.mem_cons_of_mem _ hx) y (List.mem_cons_of_mem _ hy)
          z (List.mem_cons_of_mem _ hz))
      have hh : h ∈ l := by
        rw [hdec]
        exact List.mem_append_right _ (List.mem_cons_self _ _)
      have hmem_pre : ∀ x ∈ pre, x ∈ l := fun x hx => by
        rw [hdec]
        exact List.mem_append_left _ hx
      have hmem_post : ∀ x ∈ post, x ∈ l := fun x hx => by
        rw [hdec]
        exact List.mem_append_right _ (List.mem_cons_of_mem _ hx)
      by_cases hc : cmp a h ≤ 0
      · refine ⟨[], a, l, h :: t, rfl, by simp [sortWith, hs, insertSorted, hc], ?_, ?_⟩
        · intro x hx
          exact absurd hx (List.not_mem_nil _)
        · intro x hx
          have hhx : cmp h x ≤ 0 := by
            rw [hdec] at hx
            rcases List.mem_append.1 hx with hx | hx
            · rcases htot h (List.mem_cons_of_mem _ hh) x
                (List.mem_cons_of_mem _ (hmem_pre x hx)) with h1 | h1
              · exact h1
              · exact absurd h1 (hpre x hx)
            · rcases List.mem_cons.1 hx with rfl | hx
              · rcases htot x (List.mem_cons_of_mem _ hh) x (List.mem_cons_of_mem _ hh)
                  with h1 | h1
                · exact h1
                · exact h1
              · exact hpost x hx
          exact htr a (List.mem_cons_self _ _) h (List.mem_cons_of_mem _ hh) x
            (List.mem_cons_of_mem _ hx) hc hhx
      · refine ⟨a :: pre, h, post, insertSorted cmp a t, by rw [hdec]; rfl,
          by simp [sortWith, hs, insertSorted, hc], ?_, hpost⟩
        intro x hx
        rcases List.mem_cons.1 hx with rfl | hx
        · exact hc
        · exact hpre x hx

theorem subSign_pos (x y : Dbl) (hx : x ≠ .nan) (hy : y ≠ .nan) :
    ¬ subSign x y ≤ 0 ↔ Dbl.lt y x := by
  cases x <;> cases y <;> simp only [subSign, Dbl.lt] at *
  all_goals try contradiction
  · rename_i a b
    constructor
    · intro h
      by_contra hlt
      by_cases h1 : a < b
      · simp [h1] at h
      · have h2 : ¬ b < a := hlt
        simp [h1, h2] at h
    · intro h
      have h1 : ¬ a < b := by omega
      simp [h1, h]
  · simp
  · simp
  · simp

set_option exponentiation.threshold 4000 in
set_option maxRecDepth 100000 in
/-- C19. Among the keyword candidates, taken in the order of their lines,
`extractAmount` returns the first one of the largest value: every candidate
before it is strictly smaller and every candidate after it is at most equal.
`Total 450.0` before `Paid 450.00` gives `450.0`, and in the other order
`450.00`. -/
theorem extractAmount_tie_break (text : Str) (h : amountCandidates text ≠ []) :
    (∃ pre post, amountCandidates text = pre ++ extractAmount text :: post ∧
      (∀ c ∈ pre, Dbl.lt (parseFloat c) (parseFloat (extractAmount text))) ∧
      ∀ c ∈ post, Dbl.le (parseFloat c) (parseFloat (extractAmount text))) ∧
    extractAmount "Total 450.0\nPaid 450.00".toList = "450.0".toList ∧
    extractAmount "Paid 450.00\nTotal 450.0".toList = "450.00".toList := by
  refine ⟨?_, by decide, by decide⟩
  have htok : ∀ c ∈ amountCandidates text, IsAmountToken c :=
    fun c hc => (mem_amountCandidates text c hc).1
  obtain ⟨pre, m, post, t, hdec, hs, hpre, hpost⟩ :=
    sortWith_head_first amountCompare (amountCandidates text) h
      (fun a ha b hb => by
        rw [amountCompare_le_zero a b (htok a ha) (htok b hb),
          amountCompare_le_zero b a (htok b hb) (htok a ha)]
        exact Dbl.le_total _ _ (parseFloat_ne_nan b (htok b hb))
          (parseFloat_ne_nan a (htok a ha)))
      (fun a ha b hb c hc => by
        rw [amountCompare_le_zero a b (htok a ha) (htok b hb),
          amountCompare_le_zero b c (htok b hb) (htok c hc),
          amountCompare_le_zero a c (htok a ha) (htok c hc)]
        intro h1 h2
        exact Dbl.le_trans _ _ _ h2 h1)
  obtain ⟨t', ht'⟩ := extractAmount_of_candidates text h
  rw [ht'] at hs
  cases hs
  have hm : extractAmount text ∈ amountCandidates text := by
    rw [hdec]
    exact List.mem_append_right _ (List.mem_cons_self _ _)
  refine ⟨pre, post, hdec, ?_, ?_⟩
  · intro c hc
    have hcm : c ∈ amountCandidates text := by
      rw [hdec]
      exact List.mem_append_left _ hc
    exact (subSign_pos _ _ (parseFloat_ne_nan _ (htok _ hm))
      (parseFloat_ne_nan _ (htok c hcm))).1 (hpre c hc)
  · intro c hc
    have hcm : c ∈ amountCandidates text := by
      rw [hdec]
      exact List.mem_append_right _ (List.mem_cons_of_mem _ hc)
    exact (amountCompare_le_zero _ c (htok _ hm) (htok c hcm)).1 (hpost c hc)

set_option maxRecDepth 100000 in
/-- Witness of C19 on two lines with the same amount in two spellings. -/
theorem extractAmount_tie_break_witness :
    ∃ pre post, amountCandidates "Total 450.0\nPaid 450.00".toList =
        pre ++ extractAmount "Total 450.0\nPaid 450.00".toList :: post ∧
      (∀ c ∈ pre, Dbl.lt (parseFloat c)
        (parseFloat (extractAmount "Total 450.0\nPaid 450.00".toList))) ∧
      ∀ c ∈ post, Dbl.le (parseFloat c)
        (parseFloat (extractAmount "Total 450.0\nPaid 450.00".toList)) :=
  (extractAmount_tie_break "Total 450.0\nPaid 450.00".toList (by decide)).1

/-! ## Adding text to a classified text -/

theorem occursAny_append_left (ws : List String) (a b : Str)
    (h : OccursAny ws (toLowerCase a)) : OccursAny ws (toLowerCase (a ++ b)) := by
  obtain ⟨w, hw, pre, post, hs⟩ := h
  refine ⟨w, hw, pre, post ++ toLowerCase b, ?_⟩
  rw [toLowerCase_append, ← hs]
  simp

theorem occursAny_append_right (ws : List String) (a b : Str)
    (h : OccursAny ws (toLowerCase b)) : OccursAny ws (toLowerCase (a ++ b)) := by
  obtain ⟨w, hw, pre, post, hs⟩ := h
  refine ⟨w, hw, toLowerCase a ++ pre, post, ?_⟩
  rw [toLowerCase_append, ← hs]
  simp

theorem categoryRank_mono (s t : Str)
    (hmono : ∀ ws, OccursAny ws (toLowerCase s) → OccursAny ws (toLowerCase t)) :
    categoryRank (extractCategory t) ≤ categoryRank (extractCategory s) := by
  unfold extractCategory
  simp only [mapping, categoryLoop, any_includes_iff]
  have m1 := hmono ["zomato", "swiggy", "restaurant", "food", "cafe", "dining", "bake", "lunch",
    "dinner"]
  have m2 := hmono ["uber", "ola", "fuel", "petrol", "diesel", "transport", "taxi", "metro"]
  have m3 := hmono ["amazon", "flipkart", "mart", "store", "retail", "fashions", "mall"]
  have m4 := hmono ["pharmacy", "hospital", "doctor", "clinic", "medical", "medicine"]
  have m5 := hmono ["electricity", "water", "recharge", "mobile", "internet", "subscription"]
  split_ifs <;> first | decide | (exfalso; tauto)

theorem paymentRank_mono (s t : Str)
    (hmono : ∀ ws, OccursAny ws (toLowerCase s) → OccursAny ws (toLowerCase t)) :
    paymentRank (extractPaymentMethod t) ≤ paymentRank (extractPaymentMethod s) := by
  rw [extractPaymentMethod_eq_on, extractPaymentMethod_eq_on]
  unfold paymentOn
  have m1 := hmono ["upi", "scan", "phonepe", "paytm", "gpay"]
  have m2 := hmono ["card", "visa", "mastercard", "credit", "debit"]
  have m3 := hmono ["netbanking", "neft", "imbps"]
  split_ifs <;> first | decide | (exfalso; tauto)

theorem categoryRank_eq_zero (tag : String) (h : categoryRank tag = 0) : tag = "Food" := by
  unfold categoryRank at h
  split_ifs at h with h1
  exact h1

/-- C20. Adding text never lowers the priority of a classification: the rank
of the tag of `a + b` is at most the rank of the tag of `a` and of the tag of
`b`, for the categories (Food first, Other last) and for the payment methods
(UPI first, Cash last); so a text classified as Food stays Food with any text
added before it or after it. -/
theorem classification_rank_mono (a b : Str) :
    categoryRank (extractCategory (a ++ b)) ≤ categoryRank (extractCategory a) ∧
    categoryRank (extractCategory (a ++ b)) ≤ categoryRank (extractCategory b) ∧
    paymentRank (extractPaymentMethod (a ++ b)) ≤ paymentRank (extractPaymentMethod a) ∧
    paymentRank (extractPaymentMethod (a ++ b)) ≤ paymentRank (extractPaymentMethod b) ∧
    (extractCategory a = "Food" →
      extractCategory (a ++ b) = "Food" ∧ extractCategory (b ++ a) = "Food") := by
  refine ⟨categoryRank_mono a (a ++ b) fun ws h => occursAny_append_left ws a b h,
    categoryRank_mono b (a ++ b) fun ws h => occursAny_append_right ws a b h,
    paymentRank_mono a (a ++ b) fun ws h => occursAny_append_left ws a b h,
    paymentRank_mono b (a ++ b) fun ws h => occursAny_append_right ws a b h, ?_⟩
  intro hf
  have h0 : categoryRank (extractCategory a) = 0 := by
    rw [hf]
    decide
  have h1 := categoryRank_mono a (a ++ b) fun ws h => occursAny_append_left ws a b h
  have h2 := categoryRank_mono a (b ++ a) fun ws h => occursAny_append_right ws b a h
  exact ⟨categoryRank_eq_zero _ (by omega), categoryRank_eq_zero _ (by omega)⟩

/-- Witness of C20 on a Food text joined with a Travel text. -/
theorem classification_rank_mono_witness :
    extractCategory ("lunch at zomato".toList ++ " by uber".toList) = "Food" ∧
      extractCategory (" by uber".toList ++ "lunch at zomato".toList) = "Food" :=
  (classification_rank_mono "lunch at zomato".toList " by uber".toList).2.2.2.2 (by decide)

end Ocr
